import Mathlib

attribute [local semireducible] Rat.add Rat.sub Rat.mul Rat.inv Rat.ofScientific

/-!
Shallow embedding of the core event-detection pipeline of `arcos4py`
(`src/arcos4py/tools/_detect_events.py`): the clustering wrapper, the
frame `memory`, the `Linker`, the two trackers and the public
constructors, together with proofs about the claims C1–C10.

Modelling conventions:
* numpy float coordinates are modelled as rational numbers (`ℚ`); the
  kd-tree distance comparison `nn_dist <= epsPrev` is modelled on squared
  distances (`0 ≤ epsPrev ∧ dist2 ≤ epsPrev ^ 2`), which is equivalent
  because Euclidean distances are non-negative;
* numpy arrays are modelled as Lean lists, a 2-d coordinate array as a
  list of points (`List (List ℚ)`);
* cluster labels after the `np.where(labels > -1, labels + 1, nan)`
  normalisation are modelled as `Option ℤ` (`none` = NaN = noise);
* exceptions raised by the python code are modelled with `Except String`.
-/

namespace Arcos

/-- A point: the row of a 2-d numpy coordinate array. -/
abbrev Point := List ℚ

/-- Squared euclidean distance between two coordinate rows. -/
def dist2 (p q : Point) : ℚ :=
  ((p.zip q).map (fun x => (x.1 - x.2) ^ 2)).sum

/-- Model of a 1-nearest-neighbour query (`memory_kdtree.query(p, k=1)`):
returns the index of (a) closest memory point together with its squared
distance.  Ties are broken by the first (lowest) index; scipy's kd-tree
tie-break is unspecified, and no claim depends on it. -/
def nnQuery (mem : List Point) (p : Point) : ℕ × ℚ :=
  ((List.range mem.length).map (fun i => (i, dist2 p (mem.getD i [])))).foldl
    (fun best c => if c.2 < best.2 then c else best) (0, dist2 p (mem.getD 0 []))

/-- Model of `np.argsort` (stable kind): the indices `0 .. keys.length - 1`
ordered by the pair (key value, index).  Concretely: for every distinct key
value in ascending order, the indices carrying that value in ascending
(original) order. -/
def argsortBy {α : Type} [LinearOrder α] (d : α) (keys : List α) : List ℕ :=
  (List.insertionSort (· ≤ ·) keys.dedup).flatMap
    (fun v => (List.range keys.length).filter (fun i => keys.getD i d = v))

/-- Model of `np.unique` on a 1-d integer array: the distinct values in
ascending order. -/
def np_unique (l : List ℤ) : List ℤ :=
  List.insertionSort (· ≤ ·) l.dedup

/-- The per-point 1-nn results of `memory_kdtree.query(cluster_coordinates, k=1)`
in `brute_force_linking`: `(nn_indices i, nn_dist i ^ 2)` for every cluster
point. -/
def bfl_nn (memC : List Point) (coords : List Point) : List (ℕ × ℚ) :=
  coords.map (nnQuery memC)

/-- Line `prev_cluster_labels = memory_cluster_labels[nn_indices]` of
`brute_force_linking`: the event id of each cluster point's nearest memory
neighbour (one entry per cluster point). -/
def bfl_neighbor_ids (memL : List ℤ) (memC : List Point) (coords : List Point) : List ℤ :=
  (bfl_nn memC coords).map (fun x => memL.getD x.1 0)

/-- Line `prev_cluster_labels_eps = prev_cluster_labels[(nn_dist <= epsPrev)]`:
the sub-vector of `bfl_neighbor_ids` kept where the nearest-neighbour
distance is within `epsPrev`. -/
def bfl_eligible (memL : List ℤ) (memC : List Point) (epsPrev : ℚ)
    (coords : List Point) : List ℤ :=
  ((bfl_nn memC coords).zip (bfl_neighbor_ids memL memC coords)).filterMap
    (fun x => if 0 ≤ epsPrev ∧ x.1.2 ≤ epsPrev ^ 2 then some x.2 else none)

/-- Embedding of `brute_force_linking` (lines 87–115): either mint a fresh id
for the whole cluster (incrementing the counter) or propagate, per point, the
id of its nearest memory neighbour. -/
def brute_force_linking (cluster_labels : List ℤ) (cluster_coordinates : List Point)
    (memory_cluster_labels : List ℤ) (memory_coordinates : List Point)
    (propagation_threshold : ℤ) (epsPrev : ℚ) (max_cluster_label : ℤ) : List ℤ × ℤ :=
  let prev_cluster_labels :=
    bfl_neighbor_ids memory_cluster_labels memory_coordinates cluster_coordinates
  let prev_cluster_labels_eps :=
    bfl_eligible memory_cluster_labels memory_coordinates epsPrev cluster_coordinates
  if (prev_cluster_labels_eps.length : ℤ) < propagation_threshold then
    (List.replicate cluster_labels.length (max_cluster_label + 1), max_cluster_label + 1)
  else if np_unique prev_cluster_labels_eps = [] then
    (List.replicate cluster_labels.length (max_cluster_label + 1), max_cluster_label + 1)
  else
    (prev_cluster_labels, max_cluster_label)

/-- Embedding of the `memory` dataclass: a bounded FIFO of the last
`n_timepoints` frames' kept coordinates and event ids, plus the id counter. -/
structure memory where
  n_timepoints : ℕ
  coordinates : List (List Point)
  prev_cluster_ids : List (List ℤ)
  max_prev_cluster_id : ℤ

/-- Embedding of `memory.update`: evict the oldest frame when full, then
append the new frame.  (The python `pop(0)` would raise on an empty list;
that situation only arises for `n_timepoints = 0`, which no claim uses.) -/
def memory.update (m : memory) (new_coordinates : List Point)
    (new_cluster_ids : List ℤ) : memory :=
  if m.coordinates.length = m.n_timepoints then
    { m with coordinates := m.coordinates.tail ++ [new_coordinates],
             prev_cluster_ids := m.prev_cluster_ids.tail ++ [new_cluster_ids] }
  else
    { m with coordinates := m.coordinates ++ [new_coordinates],
             prev_cluster_ids := m.prev_cluster_ids ++ [new_cluster_ids] }

/-- Embedding of the `memory.all_coordinates` property (concatenation of the
retained frames; the python code special-cases a single frame, which is the
same concatenation). -/
def memory.all_coordinates (m : memory) : List Point :=
  m.coordinates.flatten

/-- Embedding of the `memory.all_cluster_ids` property. -/
def memory.all_cluster_ids (m : memory) : List ℤ :=
  m.prev_cluster_ids.flatten

/-- The `clusteringMethod` argument of `Linker.__init__`: either a backend
name (a python `str`) or a user-supplied callable. -/
inductive ClusteringMethod where
  | str (s : String)
  | callable (f : List Point → List (Option ℤ))

/-- Embedding of the `Linker` state: its `_memory`, configuration, clustering
function, the emitted `event_ids`, and the (never rewritten, see C9) public
attribute `max_prev_event_id`. -/
structure Linker where
  _memory : memory
  propagation_threshold : ℤ
  epsPrev : ℚ
  clustering_function : List Point → List (Option ℤ)
  event_ids : List ℤ
  max_prev_event_id : ℤ

/-- Embedding of `Linker._clustering`: run the clustering function, and split
its output into the kept (non-NaN) labels, the kept coordinate rows, and the
`nanrows` noise mask.  The kept labels and kept rows are the entries of the
zipped list at the non-NaN positions, extracted here through one `filterMap`
(the python code indexes the two arrays with the same mask `~nanrows`). -/
def Linker._clustering (L : Linker) (x : List Point) : List ℤ × List Point × List Bool :=
  if x = [] then ([], [], [])
  else
    let clusters := L.clustering_function x
    let kept := (clusters.zip x).filterMap (fun p => p.1.map (fun l => (l, p.2)))
    (kept.map (·.1), kept.map (·.2), clusters.map Option.isNone)

/-- Embedding of `Linker._link_next_cluster`: run `brute_force_linking`
against the concatenated memory and store the returned counter in
`memory.max_prev_cluster_id`. -/
def Linker._link_next_cluster (L : Linker) (cluster : List ℤ)
    (cluster_coordinates : List Point) : List ℤ × Linker :=
  let r := brute_force_linking cluster cluster_coordinates
    L._memory.all_cluster_ids L._memory.all_coordinates
    L.propagation_threshold L.epsPrev L._memory.max_prev_cluster_id
  (r.1, { L with _memory := { L._memory with max_prev_cluster_id := r.2 } })

/-- The per-cluster linking loop of `Linker._update_id` (the list
comprehension over `zip(grouped_clusters, grouped_coordinates)`), threading
the linker state (its id counter) left to right. -/
def Linker._link_groups (L : Linker) : List (List ℤ × List Point) → List (List ℤ) × Linker
  | [] => ([], L)
  | g :: gs =>
    let r := L._link_next_cluster g.1 g.2
    let rest := r.2._link_groups gs
    (r.1 :: rest.1, rest.2)

/-- Embedding of `Linker._group_by_clusterid`: the label-argsort key, and the
label-sorted arrays split at the first-occurrence boundaries of the distinct
labels.  `np.split` of the label-sorted array at those boundaries yields, for
each distinct label in ascending order, the block of entries carrying that
label, and within a block the stable argsort keeps the original row order;
the groups are written here directly in that form. -/
def Linker._group_by_clusterid (cluster_ids : List ℤ) (coordinates : List Point) :
    List ℕ × List (List ℤ) × List (List Point) :=
  let sort_key := argsortBy 0 cluster_ids
  let svals := np_unique cluster_ids
  (sort_key,
   svals.map (fun v =>
     (sort_key.filter (fun i => cluster_ids.getD i 0 = v)).map
       (fun i => cluster_ids.getD i 0)),
   svals.map (fun v =>
     (sort_key.filter (fun i => cluster_ids.getD i 0 = v)).map
       (fun i => coordinates.getD i [])))

/-- Embedding of `Linker._update_id` (the normal linking path): group the
current frame by cluster label, link every group against memory, concatenate
the per-group results and undo the label sort
(`np.concatenate(...)[revers_sort_key]` with
`revers_sort_key = np.argsort(cluster_ids_sort_key)`). -/
def Linker._update_id (L : Linker) (cluster_ids : List ℤ)
    (coordinates : List Point) : List ℤ × Linker :=
  let g := Linker._group_by_clusterid cluster_ids coordinates
  let r := L._link_groups (g.2.1.zip g.2.2)
  let revers_sort_key := argsortBy 0 g.1
  (revers_sort_key.map (fun i => r.1.flatten.getD i 0), r.2)

/-- Embedding of `Linker._update_id_empty`: offset the labels by the counter;
`np.nanmax` of an empty array raises `ValueError`, which the python code
swallows (`except ValueError: pass`), leaving the counter unchanged. -/
def Linker._update_id_empty (L : Linker) (cluster_ids : List ℤ) : List ℤ × Linker :=
  let linked := cluster_ids.map (· + L._memory.max_prev_cluster_id)
  match linked.max? with
  | some m => (linked, { L with _memory := { L._memory with max_prev_cluster_id := m } })
  | none => (linked, L)

/-- The scatter `event_ids = np.full_like(nanrows, -1); event_ids[~nanrows] =
linked_cluster_ids`: `-1` at every noise position, the linked ids in order at
the others. -/
def scatterIds : List Bool → List ℤ → List ℤ
  | [], _ => []
  | true :: bs, ids => -1 :: scatterIds bs ids
  | false :: bs, ids => ids.headD 0 :: scatterIds bs ids.tail

/-- Embedding of `Linker.link`: cluster the input, pick the first-frame /
empty path or the normal path, commit the kept frame to memory, and expose
the full-length `event_ids` vector. -/
def Linker.link (L : Linker) (input_coordinates : List Point) : Linker :=
  let c := L._clustering input_coordinates
  let r :=
    if L._memory.prev_cluster_ids = [] then L._update_id_empty c.1
    else if c.1 = [] ∨ L._memory.all_cluster_ids = [] then L._update_id_empty c.1
    else L._update_id c.1 c.2.1
  let L2 := { r.2 with _memory := r.2._memory.update c.2.1 r.1 }
  { L2 with event_ids := scatterIds c.2.2 r.1 }

/-- The `linked_cluster_ids` value computed inside `Linker.link` (the branch
over the first-frame / empty and normal paths), exposed for the statements
about one call. -/
def Linker.linkedOf (L : Linker) (x : List Point) : List ℤ :=
  let c := L._clustering x
  if L._memory.prev_cluster_ids = [] then (L._update_id_empty c.1).1
  else if c.1 = [] ∨ L._memory.all_cluster_ids = [] then (L._update_id_empty c.1).1
  else (L._update_id c.1 c.2.1).1

/-- The positions of the non-noise rows (`np.where(~nanrows)`), in ascending
order; used to state the output-alignment claims. -/
def keptPositions : List Bool → List ℕ
  | [] => []
  | false :: bs => 0 :: (keptPositions bs).map (· + 1)
  | true :: bs => (keptPositions bs).map (· + 1)

/-- Well-formedness of a reachable `Linker` state: the memory is a non-trivial
bounded buffer of aligned frames whose ids are strictly positive and bounded
by the counter. -/
def Linker.Valid (L : Linker) : Prop :=
  1 ≤ L._memory.n_timepoints ∧
  L._memory.prev_cluster_ids.length ≤ L._memory.n_timepoints ∧
  L._memory.coordinates.length = L._memory.prev_cluster_ids.length ∧
  (∀ p ∈ L._memory.coordinates.zip L._memory.prev_cluster_ids, p.1.length = p.2.length) ∧
  0 ≤ L._memory.max_prev_cluster_id ∧
  (∀ ids ∈ L._memory.prev_cluster_ids, ∀ x ∈ ids,
    0 < x ∧ x ≤ L._memory.max_prev_cluster_id)

/-- The clusterer contract of spec §4.1: a length-preserving label vector
whose valid (non-noise) labels are strictly positive. -/
def ClusterFnValid (f : List Point → List (Option ℤ)) : Prop :=
  ∀ x, (f x).length = x.length ∧ ∀ o ∈ f x, ∀ l ∈ o, 0 < l

/-- The `Linker` state right after a (successful) `__init__`: empty memory
with depth `nPrev`, counter 0, empty `event_ids`, `max_prev_event_id = 0`. -/
def Linker.fresh (f : List Point → List (Option ℤ)) (epsPrev : ℚ)
    (propagationThreshold : ℤ) (nPrev : ℕ) : Linker :=
  { _memory := { n_timepoints := nPrev, coordinates := [], prev_cluster_ids := [],
                 max_prev_cluster_id := 0 },
    propagation_threshold := propagationThreshold,
    epsPrev := epsPrev,
    clustering_function := f,
    event_ids := [],
    max_prev_event_id := 0 }

/-- The `isinstance(clusteringMethod, str)` check at the end of
`Linker._validate_input` (line 206): every non-`str` argument — in
particular every callable — raises `ValueError`. -/
def Linker._validate_method (clusteringMethod : ClusteringMethod) : Except String Unit :=
  match clusteringMethod with
  | .str _ => .ok ()
  | .callable _ => .error "clusteringMethod must be a string"

/-- Embedding of `Linker._validate_input` (lines 198–207).  The
`isinstance(eps, (int, float, str))` check always passes for a rational
`eps`, and the integer checks on `minClSz`, `minSamples`,
`propagationThreshold`, `nPrev`, `nJobs` are enforced by the types of the
embedding; the two checks with observable behaviour remain: `epsPrev` must
be a python `int` (a rational with denominator 1) or `None` (line 201), and
`clusteringMethod` must be a `str` (line 206). -/
def Linker._validate_input (epsPrev : Option ℚ)
    (clusteringMethod : ClusteringMethod) : Except String Unit :=
  match epsPrev with
  | some q =>
    if q.den = 1 then Linker._validate_method clusteringMethod
    else .error "epsPrev must be a number or None"
  | none => Linker._validate_method clusteringMethod

/-- Labels used while running the modelled DBSCAN. -/
inductive DbLabel where
  | undef
  | noise
  | cl (k : ℤ)
deriving DecidableEq

/-- Modelled from the spec: the `eps`-neighbourhood query of the DBSCAN
backend (the sklearn library itself is not part of src/); returns the
indices of all points within distance `eps` of `p` (including `p`). -/
def dbscanRegion (pts : List Point) (eps : ℚ) (p : Point) : List ℕ :=
  (List.range pts.length).filter
    (fun j => 0 ≤ eps ∧ dist2 p (pts.getD j []) ≤ eps ^ 2)

/-- Modelled from the spec: the seed-expansion loop of standard DBSCAN,
with explicit fuel (the queue is finite on every concrete input). -/
def dbscanExpand (pts : List Point) (eps : ℚ) (minPts : ℕ) (k : ℤ) :
    ℕ → List ℕ → List DbLabel → List DbLabel
  | 0, _, labels => labels
  | _ + 1, [], labels => labels
  | fuel + 1, q :: queue, labels =>
    match labels.getD q .undef with
    | .cl _ => dbscanExpand pts eps minPts k fuel queue labels
    | .noise => dbscanExpand pts eps minPts k fuel queue (labels.set q (.cl k))
    | .undef =>
      let labels' := labels.set q (.cl k)
      let nq := dbscanRegion pts eps (pts.getD q [])
      if minPts ≤ nq.length then dbscanExpand pts eps minPts k fuel (queue ++ nq) labels'
      else dbscanExpand pts eps minPts k fuel queue labels'

/-- Modelled from the spec: the outer scan of standard DBSCAN over the
points in index order, numbering clusters from 0 in discovery order. -/
def dbscanLoop (pts : List Point) (eps : ℚ) (minPts : ℕ) :
    List ℕ → ℤ → List DbLabel → List DbLabel
  | [], _, labels => labels
  | i :: rest, k, labels =>
    match labels.getD i .undef with
    | .undef =>
      let nq := dbscanRegion pts eps (pts.getD i [])
      if nq.length < minPts then dbscanLoop pts eps minPts rest k (labels.set i .noise)
      else
        let fuel := (pts.length + 1) * (pts.length + 1) * (pts.length + 1)
        let labels' := dbscanExpand pts eps minPts k fuel (i :: nq) (labels.set i (.cl k))
        dbscanLoop pts eps minPts rest (k + 1) labels'
    | _ => dbscanLoop pts eps minPts rest k labels

/-- Modelled from the spec: `DBSCAN(...).fit(x).labels_` — the native label
vector, `-1` for noise and `0, 1, 2, …` for clusters. -/
def dbscanLabels (eps : ℚ) (minPts : ℕ) (pts : List Point) : List ℤ :=
  (dbscanLoop pts eps minPts (List.range pts.length) 0
      (List.replicate pts.length .undef)).map
    (fun l => match l with | .cl k => k | _ => -1)

/-- Embedding of the `_dbscan` wrapper (lines 42–57): run DBSCAN on a
non-empty input and normalise the labels with
`np.where(labels > -1, labels + 1, nan)`; an empty input yields an empty
label vector without invoking the backend. -/
def _dbscan (eps : ℚ) (minClSz : ℕ) (x : List Point) : List (Option ℤ) :=
  if x ≠ [] then
    (dbscanLabels eps minClSz x).map (fun l => if -1 < l then some (l + 1) else none)
  else []

/-- Modelled from the spec: the `_hdbscan` wrapper around the external
HDBSCAN library.  No claim depends on its label output, only on the backend
being accepted at construction, so its behaviour is abstracted (all noise on
an arbitrary input, empty on empty input). -/
def _hdbscan (eps : ℚ) (minClSz : ℕ) (min_samples : ℤ) (x : List Point) :
    List (Option ℤ) :=
  if x ≠ [] then x.map (fun _ => none) else []

/-- Embedding of `Linker.__init__` (lines 160–196): compute `epsPrev`, run
`_validate_input` (which raises for non-int `epsPrev` and for every
non-string `clusteringMethod`, including callables), then resolve the
clustering function; an unknown backend name raises `ValueError`. -/
def LinkerInit (eps : ℚ) (epsPrev : Option ℚ) (minClSz : ℕ) (minSamples : ℤ)
    (clusteringMethod : ClusteringMethod) (propagationThreshold : ℤ)
    (nPrev : ℕ) : Except String Linker :=
  let epsP := epsPrev.getD eps
  match Linker._validate_input epsPrev clusteringMethod with
  | .error e => .error e
  | .ok _ =>
    match clusteringMethod with
    | .callable f => .ok (Linker.fresh f epsP propagationThreshold nPrev)
    | .str s =>
      if s = "dbscan" then
        .ok (Linker.fresh (_dbscan eps minClSz) epsP propagationThreshold nPrev)
      else if s = "hdbscan" then
        .ok (Linker.fresh (_hdbscan eps minClSz minSamples) epsP propagationThreshold nPrev)
      else
        .error "Clustering method must be either in AVAILABLE_CLUSTERING_METHODS or a callable"

/-- Iterated `link` on empty inputs (frames with no active points), used for
the memory-drain claim C6. -/
def Linker.drain (L : Linker) : ℕ → Linker
  | 0 => L
  | k + 1 => (L.drain k).link []

/-- A row of the tabular tracker's input: frame number, position columns and
the binary-activity measurement. -/
structure DFRow where
  frame : ℕ
  pos : List ℚ
  bin : ℚ
deriving DecidableEq

/-- Embedding of `DataFrameTracker._filter_active`: keep the rows whose
binary measurement is strictly positive when a binary column is configured,
all rows otherwise. -/
def DataFrameTracker.filter_active (bin_col : Bool) (x : List DFRow) : List DFRow :=
  if bin_col then x.filter (fun r => 0 < r.bin) else x

/-- Embedding of `DataFrameTracker.track_iteration`: filter to active rows,
link their coordinates, and emit the active rows paired with the event ids
(or with 0 when the event-id vector is empty).  A pre-existing event-id
column is dropped; the output carries exactly one id per surviving row. -/
def DataFrameTracker.track_iteration (bin_col : Bool) (L : Linker) (x : List DFRow) :
    List (DFRow × ℤ) × Linker :=
  let x_filtered := DataFrameTracker.filter_active bin_col x
  let L' := L.link (x_filtered.map (·.pos))
  if L'.event_ids.length = 0 then (x_filtered.map (fun r => (r, 0)), L')
  else (x_filtered.zip L'.event_ids, L')

/-- The frame-by-frame loop of `DataFrameTracker.track`, with the generator
materialised as the list of per-frame outputs. -/
def DataFrameTracker.trackFrames (bin_col : Bool) :
    Linker → List (List DFRow) → List (List (DFRow × ℤ))
  | _, [] => []
  | L, fr :: frs =>
    let r := DataFrameTracker.track_iteration bin_col L fr
    r.1 :: DataFrameTracker.trackFrames bin_col r.2 frs

/-- Embedding of `DataFrameTracker.track`: reject an empty input, sort once
by the frame column (stably; the optional object-id tie break does not
affect any claim), then run one `track_iteration` for every integer `t`
from 0 to `max(frame)` inclusive on the rows with `frame == t`. -/
def DataFrameTracker.track (bin_col : Bool) (L : Linker) (x : List DFRow) :
    Except String (List (List (DFRow × ℤ))) :=
  if x = [] then .error "Input is empty"
  else
    let x_sorted := List.insertionSort (fun a b => a.frame ≤ b.frame) x
    let maxF := (x_sorted.map (·.frame)).foldl max 0
    .ok (DataFrameTracker.trackFrames bin_col L
      ((List.range (maxF + 1)).map (fun t => x_sorted.filter (fun r => r.frame = t))))

/-- Row-major enumeration of all index tuples of a tensor shape: the model of
`np.moveaxis(np.indices(shape), 0, ndim).reshape((-1, ndim))`. -/
def coordsOfShape : List ℕ → List (List ℕ)
  | [] => [[]]
  | d :: ds => (List.range d).flatMap (fun i => (coordsOfShape ds).map (i :: ·))

/-- Row-major rank of an index tuple in a tensor shape (the flat position the
tuple indexes). -/
def rankOfCoord : List ℕ → List ℕ → ℕ
  | [], _ => 0
  | _ :: ds, [] => 0 * ds.prod
  | _ :: ds, i :: is => i * ds.prod + rankOfCoord ds is

/-- Embedding of `ImageTracker._image_to_coordinates`: cast the frame to
`np.uint16` (every value reduced modulo 2^16 to a value in `0 … 65535`),
and return the voxel coordinate tuples with the cast intensities. -/
def ImageTracker._image_to_coordinates (shape : List ℕ) (image : List ℤ) :
    List (List ℕ) × List ℤ :=
  (coordsOfShape shape, image.map (fun v => v % 65536))

/-- Embedding of `ImageTracker._filter_active`: keep the coordinates of the
voxels with measurement strictly greater than 0. -/
def ImageTracker._filter_active (pos_data : List (List ℕ)) (bin_meas_data : List ℤ) :
    List (List ℕ) :=
  ((pos_data.zip bin_meas_data).filter (fun p => 0 < p.2)).map (·.1)

/-- Embedding of `ImageTracker._coordinates_to_image`: allocate a zero
`np.uint16` tensor (flattened, row-major), and scatter the strictly positive
event ids back to their voxels; the position array and the assigned ids are
cast to `uint16` (reduced modulo 2^16) by the dtype, while the
`tracked_events > 0` mask is computed on the original int64 ids.  Raises for
a rank-0 coordinate array. -/
def ImageTracker._coordinates_to_image (shape : List ℕ) (pos_data : List (List ℕ))
    (tracked_events : List ℤ) : Except String (List ℤ) :=
  let out := List.replicate shape.prod (0 : ℤ)
  if tracked_events = [] then .ok out
  else if shape.length = 0 then .error "Dimension of input array not supported."
  else
    .ok (((pos_data.zip tracked_events).filter (fun p => 0 < p.2)).foldl
      (fun acc p => acc.set (rankOfCoord shape (p.1.map (· % 65536))) (p.2 % 65536)) out)

/-- Embedding of the input validation at the start of `ImageTracker.track`
(lines 499–519): the per-character check compares each character of `dims`
against `dims` itself (`if i not in dims_list`, line 505) — not against
`available_dims` — then duplicates and the rank are checked. -/
def ImageTracker.track_validate (dims : String) (ndim : ℕ) : Except String Unit :=
  let dims_list := dims.toList.map Char.toUpper
  if dims_list.any (fun i => ¬ dims_list.contains i) then
    .error "Invalid dimension. Must be T, X, Y, or Z."
  else if dims_list.dedup.length < dims_list.length then
    .error "Duplicate dimensions in dims."
  else if dims_list.length ≠ ndim then
    .error "Length of dims must be equal to number of dimensions in image."
  else .ok ()

/-- A trivially valid custom clusterer (every point in cluster 1), used to
instantiate the witnesses. -/
def constOne : List Point → List (Option ℤ) :=
  fun x => x.map (fun _ => some 1)

/-! ## Theorems -/

/-! ### Generic list lemmas -/

theorem foldl_mem_of_choice {α : Type} (f : α → α → α) (hf : ∀ b c, f b c = b ∨ f b c = c) :
    ∀ (l : List α) (init : α), l.foldl f init ∈ init :: l := by
  intro l
  induction l with
  | nil => intro init; simp
  | cons a l ih =>
    intro init
    rcases hf init a with h | h
    · simp only [List.foldl_cons, h]
      rcases List.mem_cons.mp (ih init) with h2 | h2
      · simp [h2]
      · simp [h2]
    · simp only [List.foldl_cons, h]
      rcases List.mem_cons.mp (ih a) with h2 | h2
      · simp [h2]
      · simp [h2]

theorem foldl_max_spec : ∀ (as : List ℤ) (a : ℤ),
    a ≤ as.foldl max a ∧ (∀ x ∈ as, x ≤ as.foldl max a) ∧
      (as.foldl max a = a ∨ as.foldl max a ∈ as) := by
  intro as
  induction as with
  | nil => intro a; simp
  | cons b as ih =>
    intro a
    obtain ⟨h1, h2, h3⟩ := ih (max a b)
    refine ⟨le_trans (le_max_left a b) h1, ?_, ?_⟩
    · intro x hx
      rcases List.mem_cons.mp hx with rfl | hx
      · exact le_trans (le_max_right a x) h1
      · exact h2 x hx
    · rcases h3 with h3 | h3
      · rcases max_choice a b with hm | hm
        · left; rw [List.foldl_cons, h3, hm]
        · right; rw [List.foldl_cons, h3, hm]; exact List.mem_cons_self _ _
      · right; exact List.mem_cons_of_mem _ h3

theorem max?_spec {l : List ℤ} (h : l ≠ []) :
    ∃ m, l.max? = some m ∧ m ∈ l ∧ ∀ x ∈ l, x ≤ m := by
  cases l with
  | nil => exact absurd rfl h
  | cons a as =>
    obtain ⟨h1, h2, h3⟩ := foldl_max_spec as a
    refine ⟨as.foldl max a, rfl, ?_, ?_⟩
    · rcases h3 with h3 | h3
      · rw [h3]; exact List.mem_cons_self _ _
      · exact List.mem_cons_of_mem _ h3
    · intro x hx
      rcases List.mem_cons.mp hx with rfl | hx
      · exact h1
      · exact h2 x hx

theorem filter_eq_singleton_of_unique {α : Type} (p : α → Bool) :
    ∀ (l : List α) (a : α), l.Nodup → a ∈ l → p a = true →
      (∀ b ∈ l, p b = true → b = a) → l.filter p = [a] := by
  intro l
  induction l with
  | nil => intro a _ ha; exact absurd ha (List.not_mem_nil a)
  | cons h t ih =>
    intro a hnd hmem hpa huniq
    rcases List.mem_cons.mp hmem with rfl | hat
    · rw [List.filter_cons_of_pos hpa]
      have ht : t.filter p = [] := by
        rw [List.filter_eq_nil_iff]
        intro b hb hpb
        have := huniq b (List.mem_cons_of_mem _ hb) hpb
        subst this
        exact (List.nodup_cons.mp hnd).1 hb
      rw [ht]
    · have hph : p h = false := by
        by_contra hc
        have : h = a := huniq h (List.mem_cons_self _ _) (by revert hc; cases p h <;> simp)
        subst this
        exact (List.nodup_cons.mp hnd).1 hat
      rw [List.filter_cons_of_neg (by simp [hph])]
      exact ih a (List.nodup_cons.mp hnd).2 hat hpa
        (fun b hb hpb => huniq b (List.mem_cons_of_mem _ hb) hpb)

theorem flatten_map_singleton {α β : Type} (f : α → β) :
    ∀ l : List α, (l.map (fun v => [f v])).flatten = l.map f := by
  intro l
  induction l with
  | nil => rfl
  | cons a l ih => simp [ih]

theorem flatMap_filter_key_perm {α β : Type} [DecidableEq α] :
    ∀ (S : List α) (l : List β) (key : β → α), S.Nodup → (∀ b ∈ l, key b ∈ S) →
      (S.flatMap (fun v => l.filter (fun b => key b = v))).Perm l := by
  intro S
  induction S with
  | nil =>
    intro l key _ hcov
    cases l with
    | nil => simp
    | cons b bs => exact absurd (hcov b (List.mem_cons_self _ _)) (List.not_mem_nil _)
  | cons v S ih =>
    intro l key hnd hcov
    have hv : v ∉ S := (List.nodup_cons.mp hnd).1
    have hblocks : S.map (fun w => l.filter (fun b => key b = w))
        = S.map (fun w => (l.filter (fun b => ¬ key b = v)).filter (fun b => key b = w)) := by
      apply List.map_congr_left
      intro w hw
      have hwv : ¬ w = v := fun hc => hv (hc ▸ hw)
      rw [List.filter_filter]
      apply List.filter_congr
      intro b _
      by_cases hb : key b = w
      · simp [hb, hwv]
      · simp [hb]
    have hl' : (S.flatMap (fun w => l.filter (fun b => key b = w))).Perm
        (l.filter (fun b => ¬ key b = v)) := by
      rw [List.flatMap_def, hblocks, ← List.flatMap_def]
      apply ih
      · exact (List.nodup_cons.mp hnd).2
      · intro b hb
        have h1 := List.of_mem_filter hb
        have h2 := hcov b (List.mem_of_mem_filter hb)
        rcases List.mem_cons.mp h2 with h2 | h2
        · exact absurd h2 (by simpa using h1)
        · exact h2
    have h0 : ((v :: S).flatMap (fun w => l.filter (fun b => key b = w)))
        = l.filter (fun b => key b = v) ++ S.flatMap (fun w => l.filter (fun b => key b = w)) := by
      simp [List.flatMap_cons]
    rw [h0]
    refine List.Perm.trans (hl'.append_left _) ?_
    have hfa := List.filter_append_perm (fun b => key b = v) l
    simpa using hfa

theorem np_unique_eq_nil {l : List ℤ} : np_unique l = [] ↔ l = [] := by
  unfold np_unique
  constructor
  · intro h
    have hp := List.perm_insertionSort (α := ℤ) (· ≤ ·) l.dedup
    rw [h] at hp
    have : l.dedup = [] := hp.symm.eq_nil
    rwa [List.dedup_eq_nil] at this
  · intro h
    subst h
    rfl

theorem nnQuery_fst_lt (mem : List Point) (p : Point) (h : mem ≠ []) :
    (nnQuery mem p).1 < mem.length := by
  have hf : ∀ (b c : ℕ × ℚ), (fun best c : ℕ × ℚ => if c.2 < best.2 then c else best) b c = b
      ∨ (fun best c : ℕ × ℚ => if c.2 < best.2 then c else best) b c = c := by
    intro b c
    by_cases hcb : c.2 < b.2
    · right; simp [hcb]
    · left; simp [hcb]
  have hm := foldl_mem_of_choice _ hf
    ((List.range mem.length).map (fun i => (i, dist2 p (mem.getD i []))))
    (0, dist2 p (mem.getD 0 []))
  rw [nnQuery]
  rcases List.mem_cons.mp hm with h0 | hmem
  · rw [h0]
    simpa using List.length_pos.mpr h
  · rcases List.mem_map.mp hmem with ⟨i, hi, hpair⟩
    rw [← hpair]
    simpa using List.mem_range.mp hi

theorem np_unique_nodup (l : List ℤ) : (np_unique l).Nodup :=
  (List.perm_insertionSort _ _).nodup_iff.mpr (List.nodup_dedup l)

theorem np_unique_mem {l : List ℤ} {v : ℤ} : v ∈ np_unique l ↔ v ∈ l := by
  unfold np_unique
  rw [(List.perm_insertionSort _ _).mem_iff, List.mem_dedup]

theorem argsortBy_perm {α : Type} [LinearOrder α] (d : α) (keys : List α) :
    (argsortBy d keys).Perm (List.range keys.length) := by
  unfold argsortBy
  apply flatMap_filter_key_perm _ _ (fun i => keys.getD i d)
  · exact (List.perm_insertionSort _ _).nodup_iff.mpr (List.nodup_dedup keys)
  · intro i hi
    rw [(List.perm_insertionSort _ _).mem_iff, List.mem_dedup]
    have hlt := List.mem_range.mp hi
    rw [List.getD_eq_getElem keys d hlt]
    exact List.getElem_mem hlt

theorem argsortBy_length {α : Type} [LinearOrder α] (d : α) (keys : List α) :
    (argsortBy d keys).length = keys.length := by
  rw [(argsortBy_perm d keys).length_eq, List.length_range]

theorem argsortBy_mem_lt {α : Type} [LinearOrder α] {d : α} {keys : List α} {i : ℕ}
    (h : i ∈ argsortBy d keys) : i < keys.length :=
  List.mem_range.mp ((argsortBy_perm d keys).mem_iff.mp h)

theorem argsortBy_getD_lt {α : Type} [LinearOrder α] (d : α) (keys : List α) {j : ℕ}
    (hj : j < keys.length) : (argsortBy d keys).getD j 0 < keys.length := by
  have hlen : j < (argsortBy d keys).length := by rw [argsortBy_length]; exact hj
  rw [List.getD_eq_getElem _ _ hlen]
  exact argsortBy_mem_lt (List.getElem_mem hlen)

theorem argsortBy_nat_eq_map_indexOf (keys : List ℕ)
    (hperm : keys.Perm (List.range keys.length)) :
    argsortBy 0 keys = (List.range keys.length).map (fun v => List.indexOf v keys) := by
  have hnd : keys.Nodup := hperm.nodup_iff.mpr (List.nodup_range _)
  have hded : keys.dedup = keys := List.dedup_eq_self.mpr hnd
  have hsorted : List.insertionSort (· ≤ ·) keys.dedup = List.range keys.length := by
    refine @List.eq_of_perm_of_sorted ℕ (· ≤ ·) _ _ _ ?_ ?_ ?_
    · exact (List.perm_insertionSort _ _).trans (by rw [hded]; exact hperm)
    · exact List.sorted_insertionSort _ _
    · exact List.sorted_le_range _
  unfold argsortBy
  rw [hsorted]
  have hblock : ∀ v ∈ List.range keys.length,
      (List.range keys.length).filter (fun i => keys.getD i 0 = v)
        = [List.indexOf v keys] := by
    intro v hv
    have hvk : v ∈ keys := hperm.mem_iff.mpr hv
    have hidx : List.indexOf v keys < keys.length := List.indexOf_lt_length.mpr hvk
    apply filter_eq_singleton_of_unique
    · exact List.nodup_range _
    · exact List.mem_range.mpr hidx
    · simp only [List.getD_eq_getElem keys 0 hidx]
      simp [List.getElem_indexOf hidx]
    · intro b hb hpb
      have hblt := List.mem_range.mp hb
      rw [List.getD_eq_getElem keys 0 hblt] at hpb
      have hkb : keys[b] = v := by simpa using hpb
      have hkk : keys[b] = keys[List.indexOf v keys] := by
        rw [hkb, List.getElem_indexOf hidx]
      exact (hnd.getElem_inj_iff).mp hkk
  calc ((List.range keys.length).flatMap
          (fun v => (List.range keys.length).filter (fun i => keys.getD i 0 = v)))
      = ((List.range keys.length).map
          (fun v => (List.range keys.length).filter (fun i => keys.getD i 0 = v))).flatten := by
        rw [List.flatMap_def]
    _ = ((List.range keys.length).map (fun v => [List.indexOf v keys])).flatten := by
        rw [List.map_congr_left hblock]
    _ = (List.range keys.length).map (fun v => List.indexOf v keys) :=
        flatten_map_singleton _ _

theorem argsortBy_inverse (keys : List ℕ) (hperm : keys.Perm (List.range keys.length))
    {j : ℕ} (hj : j < keys.length) :
    (argsortBy 0 keys).getD (keys.getD j 0) 0 = j := by
  have hnd : keys.Nodup := hperm.nodup_iff.mpr (List.nodup_range _)
  rw [argsortBy_nat_eq_map_indexOf keys hperm]
  have hval : keys.getD j 0 < keys.length := by
    rw [List.getD_eq_getElem keys 0 hj]
    exact List.mem_range.mp (hperm.subset (List.getElem_mem hj))
  have hlen : keys.getD j 0
      < ((List.range keys.length).map (fun v => List.indexOf v keys)).length := by
    simpa using hval
  rw [List.getD_eq_getElem _ _ hlen, List.getElem_map, List.getElem_range,
    List.getD_eq_getElem keys 0 hj]
  exact List.indexOf_getElem hnd j hj

/-! ### Scatter and kept-position lemmas -/

theorem scatterIds_length : ∀ (bs : List Bool) (ids : List ℤ),
    (scatterIds bs ids).length = bs.length := by
  intro bs
  induction bs with
  | nil => intro ids; rfl
  | cons b bs ih =>
    intro ids
    cases b <;> simp [scatterIds, ih]

theorem scatterIds_noise : ∀ (bs : List Bool) (ids : List ℤ) (i : ℕ),
    bs.getD i false = true → (scatterIds bs ids).getD i 0 = -1 := by
  intro bs
  induction bs with
  | nil => intro ids i h; simp [List.getD] at h
  | cons b bs ih =>
    intro ids i h
    cases i with
    | zero =>
      cases b with
      | false => simp at h
      | true => rfl
    | succ i =>
      cases b with
      | false =>
        show (scatterIds bs ids.tail).getD i 0 = -1
        exact ih ids.tail i (by simpa using h)
      | true =>
        show (scatterIds bs ids).getD i 0 = -1
        exact ih ids i (by simpa using h)

theorem scatterIds_kept_map : ∀ (bs : List Bool) (ids : List ℤ),
    ids.length = List.count false bs →
    (keptPositions bs).map (fun i => (scatterIds bs ids).getD i 0) = ids := by
  intro bs
  induction bs with
  | nil =>
    intro ids h
    simp only [List.count_nil] at h
    rw [List.length_eq_zero.mp h]
    rfl
  | cons b bs ih =>
    intro ids h
    cases b with
    | false =>
      have hc : ids.length = List.count false bs + 1 := by
        simpa [List.count_cons] using h
      cases ids with
      | nil => simp at hc
      | cons a t =>
        have ht : t.length = List.count false bs := by
          simpa using hc
        show (0 :: (keptPositions bs).map (· + 1)).map
            (fun i => (a :: scatterIds bs t).getD i 0) = a :: t
        rw [List.map_cons, List.map_map]
        have hmap : (keptPositions bs).map
            ((fun i => (a :: scatterIds bs t).getD i 0) ∘ (· + 1))
            = (keptPositions bs).map (fun i => (scatterIds bs t).getD i 0) := by
          apply List.map_congr_left
          intro i _
          simp [Function.comp, List.getD_cons_succ]
        rw [hmap, ih t ht]
        rfl
    | true =>
      have hc : ids.length = List.count false bs := by
        simpa [List.count_cons] using h
      show ((keptPositions bs).map (· + 1)).map
          (fun i => (-1 :: scatterIds bs ids).getD i 0) = ids
      rw [List.map_map]
      have hmap : (keptPositions bs).map
          ((fun i => ((-1 : ℤ) :: scatterIds bs ids).getD i 0) ∘ (· + 1))
          = (keptPositions bs).map (fun i => (scatterIds bs ids).getD i 0) := by
        apply List.map_congr_left
        intro i _
        simp [Function.comp, List.getD_cons_succ]
      rw [hmap, ih ids hc]

theorem scatterIds_kept_mem : ∀ (bs : List Bool) (ids : List ℤ) (i : ℕ),
    ids.length = List.count false bs → i < bs.length → bs.getD i false = false →
    (scatterIds bs ids).getD i 0 ∈ ids := by
  intro bs
  induction bs with
  | nil => intro ids i _ hi _; simp at hi
  | cons b bs ih =>
    intro ids i h hi hfalse
    cases b with
    | false =>
      have hc : ids.length = List.count false bs + 1 := by
        simpa [List.count_cons] using h
      cases ids with
      | nil => simp at hc
      | cons a t =>
        have ht : t.length = List.count false bs := by simpa using hc
        cases i with
        | zero => show a ∈ a :: t; exact List.mem_cons_self _ _
        | succ i =>
          have hmem := ih t i ht (by simpa using hi) (by simpa using hfalse)
          show (scatterIds bs t).getD i 0 ∈ a :: t
          exact List.mem_cons_of_mem _ hmem
    | true =>
      cases i with
      | zero => simp at hfalse
      | succ i =>
        have hc : ids.length = List.count false bs := by
          simpa [List.count_cons] using h
        have hmem := ih ids i hc (by simpa using hi) (by simpa using hfalse)
        show (scatterIds bs ids).getD i 0 ∈ ids
        exact hmem

/-! ### Component lemmas -/

theorem update_id_empty_fst (L : Linker) (ids : List ℤ) :
    (L._update_id_empty ids).1 = ids.map (· + L._memory.max_prev_cluster_id) := by
  simp only [Linker._update_id_empty]
  split <;> rfl

theorem update_id_empty_counter (L : Linker) (ids : List ℤ) :
    (L._update_id_empty ids).2._memory.max_prev_cluster_id
      = ((ids.map (· + L._memory.max_prev_cluster_id)).max?).getD
          L._memory.max_prev_cluster_id := by
  cases hm : (ids.map (· + L._memory.max_prev_cluster_id)).max? with
  | none => simp [Linker._update_id_empty, hm]
  | some m => simp [Linker._update_id_empty, hm]

theorem update_id_empty_fields (L : Linker) (ids : List ℤ) :
    (L._update_id_empty ids).2.propagation_threshold = L.propagation_threshold ∧
    (L._update_id_empty ids).2.epsPrev = L.epsPrev ∧
    (L._update_id_empty ids).2.clustering_function = L.clustering_function ∧
    (L._update_id_empty ids).2.max_prev_event_id = L.max_prev_event_id ∧
    (L._update_id_empty ids).2._memory.n_timepoints = L._memory.n_timepoints ∧
    (L._update_id_empty ids).2._memory.coordinates = L._memory.coordinates ∧
    (L._update_id_empty ids).2._memory.prev_cluster_ids = L._memory.prev_cluster_ids := by
  cases hm : (ids.map (· + L._memory.max_prev_cluster_id)).max? with
  | none => simp [Linker._update_id_empty, hm]
  | some m => simp [Linker._update_id_empty, hm]

theorem link_next_cluster_eq (L : Linker) (cl : List ℤ) (cs : List Point) :
    L._link_next_cluster cl cs
      = ((brute_force_linking cl cs L._memory.all_cluster_ids L._memory.all_coordinates
            L.propagation_threshold L.epsPrev L._memory.max_prev_cluster_id).1,
         { L with _memory := { L._memory with max_prev_cluster_id :=
            (brute_force_linking cl cs L._memory.all_cluster_ids L._memory.all_coordinates
              L.propagation_threshold L.epsPrev L._memory.max_prev_cluster_id).2 } }) := rfl

theorem brute_force_bounds (labels : List ℤ) (coords : List Point) (memL : List ℤ)
    (memC : List Point) (thr : ℤ) (eps : ℚ) (c : ℤ)
    (hlen : memC.length = memL.length) (hminC : memC ≠ [])
    (hids : ∀ x ∈ memL, 0 < x ∧ x ≤ c) (hc : 0 ≤ c)
    (hl : labels.length = coords.length) :
    c ≤ (brute_force_linking labels coords memL memC thr eps c).2 ∧
    (∀ x ∈ (brute_force_linking labels coords memL memC thr eps c).1,
      0 < x ∧ x ≤ (brute_force_linking labels coords memL memC thr eps c).2) ∧
    (brute_force_linking labels coords memL memC thr eps c).1.length = labels.length := by
  have hmint : ∀ x ∈ List.replicate labels.length (c + 1), 0 < x ∧ x ≤ c + 1 := by
    intro x hx
    have hh := List.eq_of_mem_replicate hx
    subst hh
    omega
  have hinherit : ∀ x ∈ bfl_neighbor_ids memL memC coords, 0 < x ∧ x ≤ c := by
    intro x hx
    rcases List.mem_map.mp hx with ⟨nn, hnn, hval⟩
    rcases List.mem_map.mp hnn with ⟨p, hp, hpair⟩
    subst hpair
    have hidx : (nnQuery memC p).1 < memL.length := by
      rw [← hlen]; exact nnQuery_fst_lt memC p hminC
    rw [← hval, List.getD_eq_getElem memL 0 hidx]
    exact hids _ (List.getElem_mem hidx)
  simp only [brute_force_linking]
  split
  · exact ⟨by omega, hmint, List.length_replicate _ _⟩
  · split
    · exact ⟨by omega, hmint, List.length_replicate _ _⟩
    · refine ⟨le_refl c, hinherit, ?_⟩
      simp [bfl_neighbor_ids, bfl_nn, hl]

theorem memory_update_getLastD (m : memory) (c : List Point) (i : List ℤ) :
    (m.update c i).prev_cluster_ids.getLastD [] = i := by
  unfold memory.update
  split <;> simp [List.getLastD_concat]

theorem memory_update_n (m : memory) (c : List Point) (i : List ℤ) :
    (m.update c i).n_timepoints = m.n_timepoints := by
  unfold memory.update
  split <;> rfl

theorem memory_update_counter (m : memory) (c : List Point) (i : List ℤ) :
    (m.update c i).max_prev_cluster_id = m.max_prev_cluster_id := by
  unfold memory.update
  split <;> rfl

theorem memory_update_mem_ids (m : memory) (c : List Point) (i : List ℤ) :
    ∀ ids ∈ (m.update c i).prev_cluster_ids, ids = i ∨ ids ∈ m.prev_cluster_ids := by
  unfold memory.update
  split
  · intro ids hids
    rcases List.mem_append.mp hids with h | h
    · right; exact List.mem_of_mem_tail h
    · left; simpa using h
  · intro ids hids
    rcases List.mem_append.mp hids with h | h
    · right; exact h
    · left; simpa using h

theorem memory_update_len (m : memory) (c : List Point) (i : List ℤ)
    (h : m.prev_cluster_ids.length ≤ m.n_timepoints)
    (hcl : m.coordinates.length = m.prev_cluster_ids.length)
    (hn : 1 ≤ m.n_timepoints) :
    (m.update c i).prev_cluster_ids.length ≤ m.n_timepoints ∧
    (m.update c i).coordinates.length = (m.update c i).prev_cluster_ids.length := by
  unfold memory.update
  split
  · next heq =>
    have hfull : m.prev_cluster_ids.length = m.n_timepoints := by omega
    constructor
    · show (m.prev_cluster_ids.tail ++ [i]).length ≤ m.n_timepoints
      have h2 : m.prev_cluster_ids.tail.length = m.prev_cluster_ids.length - 1 :=
        List.length_tail _
      simp only [List.length_append, List.length_cons, List.length_nil]
      omega
    · show (m.coordinates.tail ++ [c]).length = (m.prev_cluster_ids.tail ++ [i]).length
      simp [List.length_tail, hcl]
  · next heq =>
    have hne : m.coordinates.length ≠ m.n_timepoints := heq
    constructor
    · show (m.prev_cluster_ids ++ [i]).length ≤ m.n_timepoints
      simp only [List.length_append, List.length_cons, List.length_nil]
      omega
    · show (m.coordinates ++ [c]).length = (m.prev_cluster_ids ++ [i]).length
      simp [hcl]

theorem zip_tail {α β : Type} (a : List α) (b : List β) :
    (a.zip b).tail = a.tail.zip b.tail := by
  cases a <;> cases b <;> simp

theorem memory_update_zip (m : memory) (c : List Point) (i : List ℤ)
    (hcl : m.coordinates.length = m.prev_cluster_ids.length) :
    ∀ p ∈ (m.update c i).coordinates.zip (m.update c i).prev_cluster_ids,
      p = (c, i) ∨ p ∈ m.coordinates.zip m.prev_cluster_ids := by
  unfold memory.update
  split
  · intro p hp
    rw [List.zip_append (by simp [List.length_tail, hcl])] at hp
    rcases List.mem_append.mp hp with h | h
    · right
      rw [← zip_tail] at h
      exact List.mem_of_mem_tail h
    · left; simpa using h
  · intro p hp
    rw [List.zip_append hcl] at hp
    rcases List.mem_append.mp hp with h | h
    · right; exact h
    · left; simpa using h

theorem flatten_length_eq_of_zip {α β : Type} :
    ∀ (a : List (List α)) (b : List (List β)), a.length = b.length →
      (∀ p ∈ a.zip b, p.1.length = p.2.length) → a.flatten.length = b.flatten.length := by
  intro a
  induction a with
  | nil =>
    intro b hb _
    have hb0 : b = [] := List.length_eq_zero.mp (by simpa using hb.symm)
    subst hb0; rfl
  | cons x a ih =>
    intro b hb hp
    cases b with
    | nil => simp at hb
    | cons y b =>
      have h1 := hp (x, y) (by simp)
      have h2 := ih b (by simpa using hb) (fun p hpp => hp p (by simp [hpp]))
      simp only [List.flatten_cons, List.length_append, h2]
      simpa using h1

theorem count_false_isNone_aux {γ : Type} :
    ∀ (cl : List (Option ℤ)) (x : List γ), cl.length = x.length →
      List.count false (cl.map Option.isNone)
        = ((cl.zip x).filterMap (fun p => p.1.map (fun l => (l, p.2)))).length := by
  intro cl
  induction cl with
  | nil => intro x h; simp
  | cons o cl ih =>
    intro x h
    cases x with
    | nil => simp at h
    | cons a x =>
      have h' : cl.length = x.length := by simpa using h
      cases o with
      | none =>
        simpa [List.count_cons] using ih x h'
      | some lab =>
        simpa [List.count_cons] using ih x h'

theorem clustering_spec (L : Linker) (x : List Point)
    (hF : ClusterFnValid L.clustering_function) :
    (L._clustering x).1.length = (L._clustering x).2.1.length ∧
    (∀ l ∈ (L._clustering x).1, 0 < l) ∧
    (L._clustering x).2.2.length = x.length ∧
    List.count false (L._clustering x).2.2 = (L._clustering x).1.length := by
  by_cases hx : x = []
  · subst hx; simp [Linker._clustering]
  · simp only [Linker._clustering, if_neg hx]
    refine ⟨by simp, ?_, ?_, ?_⟩
    · intro l hl
      rcases List.mem_map.mp hl with ⟨p, hp, rfl⟩
      rcases List.mem_filterMap.mp hp with ⟨q, hq, hqp⟩
      cases hq1 : q.1 with
      | none => rw [hq1] at hqp; simp at hqp
      | some lab =>
        rw [hq1] at hqp
        have hmem : q.1 ∈ L.clustering_function x := (List.of_mem_zip hq).1
        have hpos := (hF x).2 q.1 hmem lab (by rw [hq1]; rfl)
        have hpe : (lab, q.2) = p := by
          apply Option.some.inj
          simpa using hqp
        rw [← hpe]
        exact hpos
    · rw [List.length_map]
      exact (hF x).1
    · rw [List.length_map]
      exact count_false_isNone_aux (L.clustering_function x) x (hF x).1

theorem link_groups_fields (gs : List (List ℤ × List Point)) : ∀ (L : Linker),
    (L._link_groups gs).2.propagation_threshold = L.propagation_threshold ∧
    (L._link_groups gs).2.epsPrev = L.epsPrev ∧
    (L._link_groups gs).2.clustering_function = L.clustering_function ∧
    (L._link_groups gs).2.max_prev_event_id = L.max_prev_event_id ∧
    (L._link_groups gs).2.event_ids = L.event_ids ∧
    (L._link_groups gs).2._memory.n_timepoints = L._memory.n_timepoints ∧
    (L._link_groups gs).2._memory.coordinates = L._memory.coordinates ∧
    (L._link_groups gs).2._memory.prev_cluster_ids = L._memory.prev_cluster_ids := by
  induction gs with
  | nil => intro L; exact ⟨rfl, rfl, rfl, rfl, rfl, rfl, rfl, rfl⟩
  | cons g gs ih => intro L; exact ih _

theorem link_groups_bounds (gs : List (List ℤ × List Point)) : ∀ (L : Linker),
    L._memory.all_coordinates.length = L._memory.all_cluster_ids.length →
    L._memory.all_cluster_ids ≠ [] →
    (∀ x ∈ L._memory.all_cluster_ids, 0 < x ∧ x ≤ L._memory.max_prev_cluster_id) →
    0 ≤ L._memory.max_prev_cluster_id →
    (∀ g ∈ gs, g.1.length = g.2.length) →
    L._memory.max_prev_cluster_id ≤ (L._link_groups gs).2._memory.max_prev_cluster_id ∧
    0 ≤ (L._link_groups gs).2._memory.max_prev_cluster_id ∧
    (∀ out ∈ (L._link_groups gs).1, ∀ x ∈ out,
      0 < x ∧ x ≤ (L._link_groups gs).2._memory.max_prev_cluster_id) ∧
    ((L._link_groups gs).1).map List.length = gs.map (fun g => g.1.length) := by
  induction gs with
  | nil =>
    intro L _ _ _ hc _
    exact ⟨le_refl _, hc, by simp [Linker._link_groups], by simp [Linker._link_groups]⟩
  | cons g gs ih =>
    intro L hlen hne hmem hc hg
    have hneC : L._memory.all_coordinates ≠ [] := by
      intro hcc
      apply hne
      have hl0 := hlen
      rw [hcc] at hl0
      exact (List.length_eq_zero.mp hl0.symm)
    have hb := brute_force_bounds g.1 g.2 L._memory.all_cluster_ids
      L._memory.all_coordinates L.propagation_threshold L.epsPrev
      L._memory.max_prev_cluster_id hlen hneC hmem hc (hg g (List.mem_cons_self _ _))
    have hrec := ih (L._link_next_cluster g.1 g.2).2 hlen hne
      (fun x hx => ⟨(hmem x hx).1, le_trans (hmem x hx).2 hb.1⟩)
      (le_trans hc hb.1)
      (fun g' hg' => hg g' (List.mem_cons_of_mem _ hg'))
    refine ⟨le_trans hb.1 hrec.1, hrec.2.1, ?_, ?_⟩
    · intro out hout x hx
      rcases List.mem_cons.mp hout with rfl | hout
      · exact ⟨(hb.2.1 x hx).1, le_trans (hb.2.1 x hx).2 hrec.1⟩
      · exact hrec.2.2.1 out hout x hx
    · show ((L._link_next_cluster g.1 g.2).1.length :: _) = (g.1.length :: _)
      rw [hrec.2.2.2]
      exact congrArg (· :: _) hb.2.2

theorem group_by_pair_lengths (ids : List ℤ) (cs : List Point) :
    ∀ g ∈ (Linker._group_by_clusterid ids cs).2.1.zip
        (Linker._group_by_clusterid ids cs).2.2, g.1.length = g.2.length := by
  intro g hg
  simp only [Linker._group_by_clusterid] at hg
  rw [List.zip_map'] at hg
  rcases List.mem_map.mp hg with ⟨v, _, rfl⟩
  simp

theorem group_by_flatten_length (ids : List ℤ) (cs : List Point) :
    ((Linker._group_by_clusterid ids cs).2.1).flatten.length = ids.length := by
  simp only [Linker._group_by_clusterid]
  have hperm := flatMap_filter_key_perm (np_unique ids) (argsortBy 0 ids)
    (fun i => ids.getD i 0) (np_unique_nodup ids)
    (fun i hi => by
      have hlt := argsortBy_mem_lt hi
      show ids.getD i 0 ∈ np_unique ids
      rw [np_unique_mem, List.getD_eq_getElem ids 0 hlt]
      exact List.getElem_mem hlt)
  have hflat : ((np_unique ids).flatMap
      (fun v => (argsortBy 0 ids).filter (fun i => ids.getD i 0 = v))).length
      = ids.length := by
    rw [hperm.length_eq, argsortBy_length]
  rw [List.length_flatten]
  rw [List.flatMap_def, List.length_flatten] at hflat
  rw [← hflat]
  congr 1
  rw [List.map_map, List.map_map]
  apply List.map_congr_left
  intro v _
  simp [Function.comp]

theorem update_id_snd (L : Linker) (ids : List ℤ) (cs : List Point) :
    (L._update_id ids cs).2
      = (L._link_groups ((Linker._group_by_clusterid ids cs).2.1.zip
          (Linker._group_by_clusterid ids cs).2.2)).2 := rfl

theorem update_id_fst (L : Linker) (ids : List ℤ) (cs : List Point) :
    (L._update_id ids cs).1 = (argsortBy 0 (argsortBy 0 ids)).map
      (fun i => ((L._link_groups ((Linker._group_by_clusterid ids cs).2.1.zip
        (Linker._group_by_clusterid ids cs).2.2)).1).flatten.getD i 0) := rfl

theorem update_id_length (L : Linker) (ids : List ℤ) (cs : List Point) :
    (L._update_id ids cs).1.length = ids.length := by
  rw [update_id_fst, List.length_map, argsortBy_length, argsortBy_length]

theorem update_id_flatten_length (L : Linker) (ids : List ℤ) (cs : List Point)
    (hlen : L._memory.all_coordinates.length = L._memory.all_cluster_ids.length)
    (hne : L._memory.all_cluster_ids ≠ [])
    (hmem : ∀ x ∈ L._memory.all_cluster_ids, 0 < x ∧ x ≤ L._memory.max_prev_cluster_id)
    (hc : 0 ≤ L._memory.max_prev_cluster_id) :
    ((L._link_groups ((Linker._group_by_clusterid ids cs).2.1.zip
      (Linker._group_by_clusterid ids cs).2.2)).1).flatten.length = ids.length := by
  have hb := link_groups_bounds ((Linker._group_by_clusterid ids cs).2.1.zip
      (Linker._group_by_clusterid ids cs).2.2) L hlen hne hmem hc
      (group_by_pair_lengths ids cs)
  rw [List.length_flatten, hb.2.2.2]
  rw [← group_by_flatten_length ids cs, List.length_flatten]
  congr 1
  simp only [Linker._group_by_clusterid]
  rw [List.zip_map', List.map_map, List.map_map]
  apply List.map_congr_left
  intro v _
  simp [Function.comp]

theorem update_id_bounds (L : Linker) (ids : List ℤ) (cs : List Point)
    (hlen : L._memory.all_coordinates.length = L._memory.all_cluster_ids.length)
    (hne : L._memory.all_cluster_ids ≠ [])
    (hmem : ∀ x ∈ L._memory.all_cluster_ids, 0 < x ∧ x ≤ L._memory.max_prev_cluster_id)
    (hc : 0 ≤ L._memory.max_prev_cluster_id) :
    L._memory.max_prev_cluster_id ≤ (L._update_id ids cs).2._memory.max_prev_cluster_id ∧
    0 ≤ (L._update_id ids cs).2._memory.max_prev_cluster_id ∧
    (∀ x ∈ (L._update_id ids cs).1,
      0 < x ∧ x ≤ (L._update_id ids cs).2._memory.max_prev_cluster_id) := by
  have hb := link_groups_bounds ((Linker._group_by_clusterid ids cs).2.1.zip
      (Linker._group_by_clusterid ids cs).2.2) L hlen hne hmem hc
      (group_by_pair_lengths ids cs)
  rw [update_id_snd]
  refine ⟨hb.1, hb.2.1, ?_⟩
  intro x hx
  rw [update_id_fst] at hx
  rcases List.mem_map.mp hx with ⟨i, hi, rfl⟩
  have hilt : i < ids.length := by
    have h1 := argsortBy_mem_lt hi
    rwa [argsortBy_length] at h1
  have hflt : i < ((L._link_groups ((Linker._group_by_clusterid ids cs).2.1.zip
      (Linker._group_by_clusterid ids cs).2.2)).1).flatten.length := by
    rw [update_id_flatten_length L ids cs hlen hne hmem hc]
    exact hilt
  rw [List.getD_eq_getElem _ _ hflt]
  have hmemf := List.getElem_mem hflt
  rcases List.mem_flatten.mp hmemf with ⟨out, hout, hxout⟩
  exact hb.2.2.1 out hout _ hxout

/-! ### The `link` call: path unfolding and the per-call invariants -/

theorem link_empty_path (L : Linker) (x : List Point)
    (h : L._memory.prev_cluster_ids = [] ∨ (L._clustering x).1 = []
      ∨ L._memory.all_cluster_ids = []) :
    L.link x = { (L._update_id_empty (L._clustering x).1).2 with
      _memory := (L._update_id_empty (L._clustering x).1).2._memory.update
        (L._clustering x).2.1 (L._update_id_empty (L._clustering x).1).1,
      event_ids := scatterIds (L._clustering x).2.2
        (L._update_id_empty (L._clustering x).1).1 } := by
  by_cases h1 : L._memory.prev_cluster_ids = []
  · simp only [Linker.link, if_pos h1]
  · have h2 : (L._clustering x).1 = [] ∨ L._memory.all_cluster_ids = [] := by
      rcases h with h | h | h
      · exact absurd h h1
      · exact Or.inl h
      · exact Or.inr h
    simp only [Linker.link, if_neg h1, if_pos h2]

theorem link_normal_path (L : Linker) (x : List Point)
    (h1 : L._memory.prev_cluster_ids ≠ []) (h2 : (L._clustering x).1 ≠ [])
    (h3 : L._memory.all_cluster_ids ≠ []) :
    L.link x = { (L._update_id (L._clustering x).1 (L._clustering x).2.1).2 with
      _memory := (L._update_id (L._clustering x).1
          (L._clustering x).2.1).2._memory.update
        (L._clustering x).2.1 (L._update_id (L._clustering x).1 (L._clustering x).2.1).1,
      event_ids := scatterIds (L._clustering x).2.2
        (L._update_id (L._clustering x).1 (L._clustering x).2.1).1 } := by
  have h23 : ¬ ((L._clustering x).1 = [] ∨ L._memory.all_cluster_ids = []) := by
    rintro (h | h)
    · exact h2 h
    · exact h3 h
  simp only [Linker.link, if_neg h1, if_neg h23]

theorem linkedOf_empty_path (L : Linker) (x : List Point)
    (h : L._memory.prev_cluster_ids = [] ∨ (L._clustering x).1 = []
      ∨ L._memory.all_cluster_ids = []) :
    L.linkedOf x = (L._update_id_empty (L._clustering x).1).1 := by
  by_cases h1 : L._memory.prev_cluster_ids = []
  · simp only [Linker.linkedOf, if_pos h1]
  · have h2 : (L._clustering x).1 = [] ∨ L._memory.all_cluster_ids = [] := by
      rcases h with h | h | h
      · exact absurd h h1
      · exact Or.inl h
      · exact Or.inr h
    simp only [Linker.linkedOf, if_neg h1, if_pos h2]

theorem linkedOf_normal_path (L : Linker) (x : List Point)
    (h1 : L._memory.prev_cluster_ids ≠ []) (h2 : (L._clustering x).1 ≠ [])
    (h3 : L._memory.all_cluster_ids ≠ []) :
    L.linkedOf x = (L._update_id (L._clustering x).1 (L._clustering x).2.1).1 := by
  have h23 : ¬ ((L._clustering x).1 = [] ∨ L._memory.all_cluster_ids = []) := by
    rintro (h | h)
    · exact h2 h
    · exact h3 h
  simp only [Linker.linkedOf, if_neg h1, if_neg h23]

theorem valid_all_len (L : Linker) (hV : L.Valid) :
    L._memory.all_coordinates.length = L._memory.all_cluster_ids.length :=
  flatten_length_eq_of_zip _ _ hV.2.2.1 hV.2.2.2.1

theorem valid_all_mem (L : Linker) (hV : L.Valid) :
    ∀ x ∈ L._memory.all_cluster_ids, 0 < x ∧ x ≤ L._memory.max_prev_cluster_id := by
  intro x hx
  rcases List.mem_flatten.mp hx with ⟨ids, hids, hxi⟩
  exact hV.2.2.2.2.2 ids hids x hxi

theorem link_assemble (L L1 : Linker) (x : List Point) (linked : List ℤ)
    (hLx : L.link x = { L1 with
      _memory := L1._memory.update (L._clustering x).2.1 linked,
      event_ids := scatterIds (L._clustering x).2.2 linked })
    (hlinked : L.linkedOf x = linked)
    (hcf : L1.clustering_function = L.clustering_function)
    (hnt : L1._memory.n_timepoints = L._memory.n_timepoints)
    (hprev : L1._memory.prev_cluster_ids = L._memory.prev_cluster_ids)
    (hcoord : L1._memory.coordinates = L._memory.coordinates)
    (hmono : L._memory.max_prev_cluster_id ≤ L1._memory.max_prev_cluster_id)
    (hbnd : ∀ y ∈ linked, 0 < y ∧ y ≤ L1._memory.max_prev_cluster_id)
    (hlinkedlen : linked.length = (L._clustering x).1.length)
    (hV : L.Valid) (hF : ClusterFnValid L.clustering_function) :
    (L.link x).Valid ∧
    L._memory.max_prev_cluster_id ≤ (L.link x)._memory.max_prev_cluster_id ∧
    (L.link x)._memory.prev_cluster_ids.getLastD [] = L.linkedOf x ∧
    (L.linkedOf x).length = (L._clustering x).1.length ∧
    (∀ y ∈ L.linkedOf x, 0 < y ∧ y ≤ (L.link x)._memory.max_prev_cluster_id) ∧
    (L.link x).event_ids = scatterIds (L._clustering x).2.2 (L.linkedOf x) ∧
    (L.link x).clustering_function = L.clustering_function ∧
    (L.link x)._memory.n_timepoints = L._memory.n_timepoints := by
  obtain ⟨hn1, hlenle, hcl, hzip, hc0, hmemids⟩ := hV
  have hcs := clustering_spec L x hF
  have hkept : (L._clustering x).2.1.length = linked.length := by
    rw [hlinkedlen, ← hcs.1]
  have hupdc : (L.link x)._memory.max_prev_cluster_id
      = L1._memory.max_prev_cluster_id := by
    rw [hLx]
    exact memory_update_counter _ _ _
  have hlen1 : L1._memory.prev_cluster_ids.length ≤ L1._memory.n_timepoints := by
    rw [hprev, hnt]; exact hlenle
  have hcl1 : L1._memory.coordinates.length = L1._memory.prev_cluster_ids.length := by
    rw [hprev, hcoord]; exact hcl
  have hn11 : 1 ≤ L1._memory.n_timepoints := by rw [hnt]; exact hn1
  refine ⟨?_, ?_, ?_, ?_, ?_, ?_, ?_, ?_⟩
  · -- Valid
    have hul := memory_update_len L1._memory (L._clustering x).2.1 linked hlen1 hcl1 hn11
    refine ⟨?_, ?_, ?_, ?_, ?_, ?_⟩
    · rw [hLx]
      show 1 ≤ (L1._memory.update _ _).n_timepoints
      rw [memory_update_n]
      exact hn11
    · rw [hLx]
      show (L1._memory.update _ _).prev_cluster_ids.length
        ≤ (L1._memory.update _ _).n_timepoints
      rw [memory_update_n]
      exact hul.1
    · rw [hLx]
      exact hul.2
    · rw [hLx]
      intro p hp
      rcases memory_update_zip L1._memory _ _ hcl1 p hp with rfl | hold
      · exact hkept
      · rw [hcoord, hprev] at hold
        exact hzip p hold
    · rw [hLx]
      show 0 ≤ (L1._memory.update _ _).max_prev_cluster_id
      rw [memory_update_counter]
      exact le_trans hc0 hmono
    · rw [hLx]
      intro ids hids y hy
      have hm0 : (L1._memory.update (L._clustering x).2.1 linked).max_prev_cluster_id
          = L1._memory.max_prev_cluster_id := memory_update_counter _ _ _
      rcases memory_update_mem_ids L1._memory _ _ ids hids with rfl | hold
      · rw [hm0]
        exact hbnd y hy
      · rw [hm0]
        rw [hprev] at hold
        have := hmemids ids hold y hy
        exact ⟨this.1, le_trans this.2 hmono⟩
  · rw [hupdc]
    exact hmono
  · rw [hLx, hlinked]
    exact memory_update_getLastD _ _ _
  · rw [hlinked]
    exact hlinkedlen
  · rw [hlinked, hupdc]
    exact hbnd
  · rw [hLx, hlinked]
  · rw [hLx, hcf]
  · rw [hLx]
    show (L1._memory.update _ _).n_timepoints = L._memory.n_timepoints
    rw [memory_update_n]
    exact hnt

theorem link_main (L : Linker) (x : List Point) (hV : L.Valid)
    (hF : ClusterFnValid L.clustering_function) :
    (L.link x).Valid ∧
    L._memory.max_prev_cluster_id ≤ (L.link x)._memory.max_prev_cluster_id ∧
    (L.link x)._memory.prev_cluster_ids.getLastD [] = L.linkedOf x ∧
    (L.linkedOf x).length = (L._clustering x).1.length ∧
    (∀ y ∈ L.linkedOf x, 0 < y ∧ y ≤ (L.link x)._memory.max_prev_cluster_id) ∧
    (L.link x).event_ids = scatterIds (L._clustering x).2.2 (L.linkedOf x) ∧
    (L.link x).clustering_function = L.clustering_function ∧
    (L.link x)._memory.n_timepoints = L._memory.n_timepoints := by
  have hpos : ∀ l ∈ (L._clustering x).1, 0 < l := (clustering_spec L x hF).2.1
  have hc0 : 0 ≤ L._memory.max_prev_cluster_id := hV.2.2.2.2.1
  by_cases hpath : L._memory.prev_cluster_ids = [] ∨ (L._clustering x).1 = []
      ∨ L._memory.all_cluster_ids = []
  · have hfst := update_id_empty_fst L (L._clustering x).1
    have hfields := update_id_empty_fields L (L._clustering x).1
    have hcounter := update_id_empty_counter L (L._clustering x).1
    have hbl : ∀ y ∈ (L._update_id_empty (L._clustering x).1).1,
        0 < y ∧ y ≤ (L._update_id_empty (L._clustering x).1).2._memory.max_prev_cluster_id := by
      intro y hy
      rw [hfst] at hy
      rcases List.mem_map.mp hy with ⟨l, hl, rfl⟩
      have hlp := hpos l hl
      constructor
      · omega
      · rw [hcounter]
        have hne : ((L._clustering x).1.map (· + L._memory.max_prev_cluster_id)) ≠ [] := by
          intro hcon
          rw [List.map_eq_nil_iff] at hcon
          rw [hcon] at hl
          exact List.not_mem_nil l hl
        obtain ⟨m, hm, _, hall⟩ := max?_spec hne
        rw [hm]
        exact hall _ (List.mem_map.mpr ⟨l, hl, rfl⟩)
    have hmono : L._memory.max_prev_cluster_id
        ≤ (L._update_id_empty (L._clustering x).1).2._memory.max_prev_cluster_id := by
      rw [hcounter]
      by_cases hk : (L._clustering x).1 = []
      · rw [hk]
        simp
      · have hne : ((L._clustering x).1.map (· + L._memory.max_prev_cluster_id)) ≠ [] := by
          intro hcon
          rw [List.map_eq_nil_iff] at hcon
          exact hk hcon
        obtain ⟨m, hm, hmem, _⟩ := max?_spec hne
        rw [hm]
        rcases List.mem_map.mp hmem with ⟨l, hl, rfl⟩
        have := hpos l hl
        show L._memory.max_prev_cluster_id ≤ l + L._memory.max_prev_cluster_id
        omega
    exact link_assemble L (L._update_id_empty (L._clustering x).1).2 x
      (L._update_id_empty (L._clustering x).1).1
      (link_empty_path L x hpath) (linkedOf_empty_path L x hpath)
      hfields.2.2.1 hfields.2.2.2.2.1 hfields.2.2.2.2.2.2 hfields.2.2.2.2.2.1
      hmono hbl (by rw [hfst, List.length_map])
      ⟨hV.1, hV.2.1, hV.2.2.1, hV.2.2.2.1, hc0, hV.2.2.2.2.2⟩ hF
  · push_neg at hpath
    obtain ⟨h1, h2, h3⟩ := hpath
    have hgfields := link_groups_fields ((Linker._group_by_clusterid (L._clustering x).1
      (L._clustering x).2.1).2.1.zip (Linker._group_by_clusterid (L._clustering x).1
      (L._clustering x).2.1).2.2) L
    have hub := update_id_bounds L (L._clustering x).1 (L._clustering x).2.1
      (valid_all_len L hV) h3 (valid_all_mem L hV) hc0
    refine link_assemble L (L._update_id (L._clustering x).1 (L._clustering x).2.1).2 x
      (L._update_id (L._clustering x).1 (L._clustering x).2.1).1
      (link_normal_path L x h1 h2 h3) (linkedOf_normal_path L x h1 h2 h3)
      ?_ ?_ ?_ ?_ ?_ ?_ (update_id_length L _ _)
      ⟨hV.1, hV.2.1, hV.2.2.1, hV.2.2.2.1, hc0, hV.2.2.2.2.2⟩ hF
    · rw [update_id_snd]
      exact hgfields.2.2.1
    · rw [update_id_snd]
      exact hgfields.2.2.2.2.2.1
    · rw [update_id_snd]
      exact hgfields.2.2.2.2.2.2.2
    · rw [update_id_snd]
      exact hgfields.2.2.2.2.2.2.1
    · rw [update_id_snd]
      exact hub.1
    · intro y hy
      have := hub.2.2 y hy
      rw [update_id_snd] at this
      exact this

theorem scatterIds_mem : ∀ (bs : List Bool) (ids : List ℤ),
    ids.length = List.count false bs →
    ∀ e ∈ scatterIds bs ids, e = -1 ∨ e ∈ ids := by
  intro bs
  induction bs with
  | nil => intro ids _ e he; simp [scatterIds] at he
  | cons b bs ih =>
    intro ids h e he
    cases b with
    | false =>
      have hc : ids.length = List.count false bs + 1 := by
        simpa [List.count_cons] using h
      cases ids with
      | nil => simp at hc
      | cons a t =>
        have ht : t.length = List.count false bs := by simpa using hc
        have he2 : e ∈ a :: scatterIds bs t := he
        rcases List.mem_cons.mp he2 with rfl | he3
        · right; exact List.mem_cons_self _ _
        · rcases ih t ht e he3 with h4 | h4
          · left; exact h4
          · right; exact List.mem_cons_of_mem _ h4
    | true =>
      have hc : ids.length = List.count false bs := by
        simpa [List.count_cons] using h
      have he2 : e ∈ (-1 : ℤ) :: scatterIds bs ids := he
      rcases List.mem_cons.mp he2 with rfl | he3
      · left; rfl
      · exact ih ids hc e he3

theorem constOne_valid : ClusterFnValid constOne := by
  intro x
  constructor
  · simp [constOne]
  · intro o ho l hl
    simp only [constOne, List.mem_map] at ho
    obtain ⟨_, _, rfl⟩ := ho
    have : l = 1 := by
      cases hl
      rfl
    omega

theorem fresh_valid (f : List Point → List (Option ℤ)) (epsP : ℚ) (thr : ℤ)
    (nPrev : ℕ) (hn : 1 ≤ nPrev) : (Linker.fresh f epsP thr nPrev).Valid := by
  refine ⟨hn, ?_, rfl, ?_, le_refl 0, ?_⟩
  · show (0 : ℕ) ≤ nPrev
    omega
  · intro p hp
    simp [Linker.fresh] at hp
  · intro ids hids
    simp [Linker.fresh] at hids

theorem fold_link_valid : ∀ (past : List (List Point)) (L : Linker), L.Valid →
    ClusterFnValid L.clustering_function →
    (past.foldl Linker.link L).Valid ∧
    (past.foldl Linker.link L).clustering_function = L.clustering_function := by
  intro past
  induction past with
  | nil => intro L hV _; exact ⟨hV, rfl⟩
  | cons fr past ih =>
    intro L hV hF
    have hm := link_main L fr hV hF
    have hF' : ClusterFnValid (L.link fr).clustering_function := by
      rw [hm.2.2.2.2.2.2.1]; exact hF
    have hrec := ih (L.link fr) hm.1 hF'
    rw [List.foldl_cons]
    exact ⟨hrec.1, by rw [hrec.2, hm.2.2.2.2.2.2.1]⟩

theorem link_max_prev_event_id (L : Linker) (x : List Point) :
    (L.link x).max_prev_event_id = L.max_prev_event_id := by
  by_cases hpath : L._memory.prev_cluster_ids = [] ∨ (L._clustering x).1 = []
      ∨ L._memory.all_cluster_ids = []
  · rw [link_empty_path L x hpath]
    exact (update_id_empty_fields L _).2.2.2.1
  · push_neg at hpath
    rw [link_normal_path L x hpath.1 hpath.2.1 hpath.2.2]
    show (L._update_id _ _).2.max_prev_event_id = _
    rw [update_id_snd]
    exact (link_groups_fields _ L).2.2.2.1

/-- C9: the public attribute `max_prev_event_id` of a `Linker` is written only
in `__init__` (to 0) and never by `link`; across any sequence of `link`
calls on a constructed `Linker` it stays 0.  The counter that is actually
incremented on minting (by `_link_next_cluster`, which stores the value
returned by `brute_force_linking`) and read for offsets is the separate
field `memory.max_prev_cluster_id`. -/
theorem C9_max_prev_event_id_frozen :
    (∀ (L : Linker) (frames : List (List Point)),
      (frames.foldl Linker.link L).max_prev_event_id = L.max_prev_event_id) ∧
    (∀ (f : List Point → List (Option ℤ)) (epsP : ℚ) (thr : ℤ) (n : ℕ)
      (frames : List (List Point)),
      (frames.foldl Linker.link (Linker.fresh f epsP thr n)).max_prev_event_id = 0) ∧
    (∀ (L : Linker) (cl : List ℤ) (cs : List Point),
      (L._link_next_cluster cl cs).2.max_prev_event_id = L.max_prev_event_id ∧
      (L._link_next_cluster cl cs).2._memory.max_prev_cluster_id
        = (brute_force_linking cl cs L._memory.all_cluster_ids
            L._memory.all_coordinates L.propagation_threshold L.epsPrev
            L._memory.max_prev_cluster_id).2) := by
  have hfold : ∀ (frames : List (List Point)) (L : Linker),
      (frames.foldl Linker.link L).max_prev_event_id = L.max_prev_event_id := by
    intro frames
    induction frames with
    | nil => intro L; rfl
    | cons fr frames ih =>
      intro L
      rw [List.foldl_cons, ih, link_max_prev_event_id]
  exact ⟨fun L frames => hfold frames L,
    fun f e t n frames => by rw [hfold]; rfl,
    fun L cl cs => ⟨rfl, rfl⟩⟩

/-- C3: across any sequence of `link` calls on one `Linker`, the id counter
(the spec's `max_prev_event_id`, realised as `memory.max_prev_cluster_id`,
cf. C9) is non-decreasing, and every event id emitted in a call is either
the noise sentinel −1 or a strictly positive integer not exceeding the
counter's value after that call. -/
theorem C3_ids_bounded_counter_monotone
    (f : List Point → List (Option ℤ)) (hf : ClusterFnValid f) (epsP : ℚ) (thr : ℤ)
    (nPrev : ℕ) (hn : 1 ≤ nPrev) (past : List (List Point)) (next : List Point) :
    (past.foldl Linker.link (Linker.fresh f epsP thr nPrev))._memory.max_prev_cluster_id
      ≤ ((past.foldl Linker.link (Linker.fresh f epsP thr nPrev)).link
          next)._memory.max_prev_cluster_id ∧
    ∀ e ∈ ((past.foldl Linker.link (Linker.fresh f epsP thr nPrev)).link next).event_ids,
      e = -1 ∨ (0 < e ∧ e ≤ ((past.foldl Linker.link
        (Linker.fresh f epsP thr nPrev)).link next)._memory.max_prev_cluster_id) := by
  obtain ⟨hval, hcf⟩ := fold_link_valid past _ (fresh_valid f epsP thr nPrev hn) hf
  have hFp : ClusterFnValid
      (past.foldl Linker.link (Linker.fresh f epsP thr nPrev)).clustering_function := by
    rw [hcf]; exact hf
  have hm := link_main (past.foldl Linker.link (Linker.fresh f epsP thr nPrev)) next hval hFp
  refine ⟨hm.2.1, ?_⟩
  intro e he
  rw [hm.2.2.2.2.2.1] at he
  have hcs := clustering_spec (past.foldl Linker.link (Linker.fresh f epsP thr nPrev)) next hFp
  have hcount : ((past.foldl Linker.link (Linker.fresh f epsP thr nPrev)).linkedOf next).length
      = List.count false ((past.foldl Linker.link
          (Linker.fresh f epsP thr nPrev))._clustering next).2.2 := by
    rw [hm.2.2.2.1, hcs.2.2.2]
  rcases scatterIds_mem _ _ hcount e he with h | h
  · exact Or.inl h
  · exact Or.inr (hm.2.2.2.2.1 e h)

/-- Witness for C3 at a concrete run: one frame, trivial clusterer. -/
theorem C3_ids_bounded_counter_monotone_witness :
    (([] : List (List Point)).foldl Linker.link
        (Linker.fresh constOne 1 1 1))._memory.max_prev_cluster_id
      ≤ ((([] : List (List Point)).foldl Linker.link
          (Linker.fresh constOne 1 1 1)).link [[0]])._memory.max_prev_cluster_id :=
  (C3_ids_bounded_counter_monotone constOne constOne_valid 1 1 1 (by decide) [] [[0]]).1

/-- C2: after `Linker.link(coords)` on a well-formed state, `event_ids` has
one entry per input row, carries the sentinel −1 exactly at the rows the
clusterer marked as noise, and the non-noise entries are the linked ids in
the caller's original row order (reading the non-noise positions in order
yields exactly the id vector committed to memory); the label sort used for
grouping is undone before emission — `_update_id` at the original position
`sort_key[j]` holds the j-th entry of the concatenated per-group results. -/
theorem C2_link_output_alignment (L : Linker) (coords : List Point)
    (hV : L.Valid) (hF : ClusterFnValid L.clustering_function) :
    (L.link coords).event_ids.length = coords.length ∧
    (∀ i, i < coords.length →
      ((L.link coords).event_ids.getD i 0 = -1
        ↔ (L._clustering coords).2.2.getD i false = true)) ∧
    (keptPositions (L._clustering coords).2.2).map
        (fun i => (L.link coords).event_ids.getD i 0)
      = (L.link coords)._memory.prev_cluster_ids.getLastD [] ∧
    (∀ (ids : List ℤ) (cs : List Point) (j : ℕ), j < ids.length →
      (L._update_id ids cs).1.getD ((argsortBy 0 ids).getD j 0) 0
        = ((L._link_groups ((Linker._group_by_clusterid ids cs).2.1.zip
            (Linker._group_by_clusterid ids cs).2.2)).1).flatten.getD j 0) := by
  have hm := link_main L coords hV hF
  have hcs := clustering_spec L coords hF
  have hcount : (L.linkedOf coords).length
      = List.count false (L._clustering coords).2.2 := by
    rw [hm.2.2.2.1, hcs.2.2.2]
  refine ⟨?_, ?_, ?_, ?_⟩
  · rw [hm.2.2.2.2.2.1, scatterIds_length, hcs.2.2.1]
  · intro i hi
    constructor
    · intro hneg
      by_contra hfalse
      have hfb : (L._clustering coords).2.2.getD i false = false := by
        cases hgd : (L._clustering coords).2.2.getD i false
        · rfl
        · exact absurd hgd hfalse
      have hlt : i < (L._clustering coords).2.2.length := by
        rw [hcs.2.2.1]; exact hi
      have hmem := scatterIds_kept_mem (L._clustering coords).2.2
        (L.linkedOf coords) i hcount hlt hfb
      rw [hm.2.2.2.2.2.1] at hneg
      have hpos := (hm.2.2.2.2.1 _ hmem).1
      omega
    · intro htrue
      rw [hm.2.2.2.2.2.1]
      exact scatterIds_noise _ _ i htrue
  · rw [hm.2.2.2.2.2.1, hm.2.2.1]
    exact scatterIds_kept_map _ _ hcount
  · intro ids cs j hj
    rw [update_id_fst]
    have hsk : (argsortBy 0 ids).Perm (List.range (argsortBy 0 ids).length) := by
      rw [argsortBy_length]
      exact argsortBy_perm 0 ids
    have hj' : j < (argsortBy 0 ids).length := by
      rw [argsortBy_length]; exact hj
    have hidxlt : (argsortBy 0 ids).getD j 0 < ids.length := argsortBy_getD_lt 0 ids hj
    have hidx : (argsortBy 0 ids).getD j 0
        < ((argsortBy 0 (argsortBy 0 ids)).map
            (fun i => ((L._link_groups ((Linker._group_by_clusterid ids cs).2.1.zip
              (Linker._group_by_clusterid ids cs).2.2)).1).flatten.getD i 0)).length := by
      rw [List.length_map, argsortBy_length, argsortBy_length]
      exact hidxlt
    rw [List.getD_eq_getElem _ _ hidx, List.getElem_map]
    have hidx2 : (argsortBy 0 ids).getD j 0 < (argsortBy 0 (argsortBy 0 ids)).length := by
      rw [argsortBy_length, argsortBy_length]
      exact hidxlt
    rw [← List.getD_eq_getElem (argsortBy 0 (argsortBy 0 ids)) 0 hidx2]
    rw [argsortBy_inverse (argsortBy 0 ids) hsk hj']

/-- Witness for C2: a fresh linker on two rows emits two event ids. -/
theorem C2_link_output_alignment_witness :
    ((Linker.fresh constOne 1 1 1).link [[0], [5]]).event_ids.length = 2 := by
  have hw := (C2_link_output_alignment (Linker.fresh constOne 1 1 1) [[0], [5]]
    (fresh_valid constOne 1 1 1 (by decide)) constOne_valid).1
  simpa using hw

/-! ### Memory drain (claim C6) -/

theorem link_nil (L : Linker) :
    L.link [] = { L with _memory := L._memory.update [] [], event_ids := [] } := by
  by_cases h1 : L._memory.prev_cluster_ids = []
  · rw [link_empty_path L [] (Or.inl h1)]
    rfl
  · rw [link_empty_path L [] (Or.inr (Or.inl rfl))]
    rfl

theorem suffix_append_singleton {α : Type} {u v : List α} (h : u <:+ v) (x : α) :
    u ++ [x] <:+ v ++ [x] := by
  obtain ⟨t, ht⟩ := h
  exact ⟨t, by rw [← List.append_assoc, ht]⟩

theorem suffix_tail_of_lt {α : Type} {u v : List α} (h : u <:+ v)
    (hlt : u.length < v.length) : u <:+ v.tail := by
  obtain ⟨t, ht⟩ := h
  cases t with
  | nil =>
    exfalso
    rw [List.nil_append] at ht
    subst ht
    omega
  | cons a t =>
    refine ⟨t, ?_⟩
    rw [← ht]
    rfl

theorem replicate_suffix {α : Type} (a : α) {m m' : ℕ} (h : m ≤ m') :
    List.replicate m a <:+ List.replicate m' a := by
  refine ⟨List.replicate (m' - m) a, ?_⟩
  rw [← List.replicate_add]
  congr 1
  omega

theorem drain_valid (L : Linker) (hV : L.Valid)
    (hF : ClusterFnValid L.clustering_function) :
    ∀ k, (L.drain k).Valid ∧
      (L.drain k).clustering_function = L.clustering_function ∧
      (L.drain k)._memory.n_timepoints = L._memory.n_timepoints ∧
      (L.drain k)._memory.max_prev_cluster_id = L._memory.max_prev_cluster_id := by
  intro k
  induction k with
  | zero => exact ⟨hV, rfl, rfl, rfl⟩
  | succ k ih =>
    obtain ⟨hVk, hcfk, hntk, hck⟩ := ih
    have hFk : ClusterFnValid (L.drain k).clustering_function := by
      rw [hcfk]; exact hF
    have hm := link_main (L.drain k) [] hVk hFk
    refine ⟨hm.1, ?_, ?_, ?_⟩
    · show ((L.drain k).link []).clustering_function = _
      rw [hm.2.2.2.2.2.2.1, hcfk]
    · show ((L.drain k).link [])._memory.n_timepoints = _
      rw [hm.2.2.2.2.2.2.2, hntk]
    · show ((L.drain k).link [])._memory.max_prev_cluster_id = _
      rw [link_nil]
      show ((L.drain k)._memory.update [] []).max_prev_cluster_id = _
      rw [memory_update_counter, hck]

theorem drain_suffix (L : Linker) (hV : L.Valid)
    (hF : ClusterFnValid L.clustering_function) :
    ∀ k, List.replicate (min k L._memory.n_timepoints) ([] : List ℤ)
      <:+ (L.drain k)._memory.prev_cluster_ids := by
  intro k
  induction k with
  | zero => simp
  | succ k ih =>
    obtain ⟨hVk, _, hntk, _⟩ := drain_valid L hV hF k
    show List.replicate (min (k + 1) L._memory.n_timepoints) ([] : List ℤ)
      <:+ ((L.drain k).link [])._memory.prev_cluster_ids
    rw [link_nil]
    show _ <:+ ((L.drain k)._memory.update [] []).prev_cluster_ids
    unfold memory.update
    split
    · next heq =>
      have hplen : (L.drain k)._memory.prev_cluster_ids.length
          = L._memory.n_timepoints := by
        rw [← hVk.2.2.1, heq, hntk]
      by_cases hkn : k < L._memory.n_timepoints
      · have hmin1 : min (k + 1) L._memory.n_timepoints
            = min k L._memory.n_timepoints + 1 := by omega
        rw [hmin1, List.replicate_succ']
        apply suffix_append_singleton
        apply suffix_tail_of_lt ih
        rw [hplen, List.length_replicate]
        omega
      · have hmin : min k L._memory.n_timepoints = L._memory.n_timepoints := by omega
        rw [hmin] at ih
        obtain ⟨t, ht⟩ := ih
        have ht0 : t = [] := by
          have hl2 : t.length + L._memory.n_timepoints
              = (L.drain k)._memory.prev_cluster_ids.length := by
            rw [← ht]; simp
          rw [hplen] at hl2
          have : t.length = 0 := by omega
          exact List.length_eq_zero.mp this
        subst ht0
        rw [List.nil_append] at ht
        rw [← ht]
        have hmin2 : min (k + 1) L._memory.n_timepoints = L._memory.n_timepoints := by
          omega
        rw [hmin2]
        have hn1 : 1 ≤ L._memory.n_timepoints := hV.1
        have htail : (List.replicate L._memory.n_timepoints ([] : List ℤ)).tail
            = List.replicate (L._memory.n_timepoints - 1) ([] : List ℤ) := by
          cases hnn : L._memory.n_timepoints with
          | zero => omega
          | succ m => simp [List.replicate_succ]
        rw [htail, ← List.replicate_succ']
        have hsum : L._memory.n_timepoints - 1 + 1 = L._memory.n_timepoints := by omega
        rw [hsum]
    · next heq =>
      have hs1 : List.replicate (min k L._memory.n_timepoints) ([] : List ℤ) ++ [[]]
          <:+ (L.drain k)._memory.prev_cluster_ids ++ [[]] :=
        suffix_append_singleton ih _
      rw [← List.replicate_succ'] at hs1
      have hmle : min (k + 1) L._memory.n_timepoints
          ≤ min k L._memory.n_timepoints + 1 := by omega
      exact (replicate_suffix _ hmle).trans hs1

theorem drain_all_empty (L : Linker) (hV : L.Valid)
    (hF : ClusterFnValid L.clustering_function) :
    (L.drain L._memory.n_timepoints)._memory.prev_cluster_ids
      = List.replicate L._memory.n_timepoints ([] : List ℤ) ∧
    (L.drain L._memory.n_timepoints)._memory.all_cluster_ids = [] := by
  have hs := drain_suffix L hV hF L._memory.n_timepoints
  obtain ⟨hVd, _, hntd, _⟩ := drain_valid L hV hF L._memory.n_timepoints
  have hmin : min L._memory.n_timepoints L._memory.n_timepoints
      = L._memory.n_timepoints := by omega
  rw [hmin] at hs
  have hlen : (L.drain L._memory.n_timepoints)._memory.prev_cluster_ids.length
      ≤ L._memory.n_timepoints := by
    have hl0 := hVd.2.1
    rw [hntd] at hl0
    exact hl0
  obtain ⟨t, ht⟩ := hs
  have ht0 : t = [] := by
    have hl2 : t.length + L._memory.n_timepoints
        = (L.drain L._memory.n_timepoints)._memory.prev_cluster_ids.length := by
      rw [← ht]; simp
    have : t.length = 0 := by omega
    exact List.length_eq_zero.mp this
  subst ht0
  rw [List.nil_append] at ht
  refine ⟨ht.symm, ?_⟩
  show (L.drain L._memory.n_timepoints)._memory.prev_cluster_ids.flatten = []
  rw [← ht]
  simp [List.flatten_eq_nil_iff]

/-- C6: on the first-frame / empty-memory path, `link` assigns the clusterer
labels offset by the counter and sets the counter to the maximum of the new
ids when any exist; after `nPrev` consecutive `link` calls with no active
points Memory retains no event ids while the counter keeps its value, and a
subsequent call again assigns `labels + counter` — so when label 1 occurs
(the first cluster), the minted id `max + 1` is assigned. -/
theorem C6_empty_memory_path_and_drain (L : Linker) (hV : L.Valid)
    (hF : ClusterFnValid L.clustering_function) :
    (∀ coords, (L._memory.prev_cluster_ids = [] ∨ (L._clustering coords).1 = []
        ∨ L._memory.all_cluster_ids = []) →
      (L.link coords)._memory.prev_cluster_ids.getLastD []
          = (L._clustering coords).1.map (· + L._memory.max_prev_cluster_id) ∧
      (L.link coords)._memory.max_prev_cluster_id
          = (((L._clustering coords).1.map
              (· + L._memory.max_prev_cluster_id)).max?).getD
            L._memory.max_prev_cluster_id) ∧
    (L.drain L._memory.n_timepoints)._memory.all_cluster_ids = [] ∧
    (L.drain L._memory.n_timepoints)._memory.max_prev_cluster_id
      = L._memory.max_prev_cluster_id ∧
    (∀ coords,
      ((L.drain L._memory.n_timepoints).link coords)._memory.prev_cluster_ids.getLastD []
        = ((L.drain L._memory.n_timepoints)._clustering coords).1.map
            (· + L._memory.max_prev_cluster_id) ∧
      ((1 : ℤ) ∈ ((L.drain L._memory.n_timepoints)._clustering coords).1 →
        (L._memory.max_prev_cluster_id + 1)
          ∈ ((L.drain L._memory.n_timepoints).link
              coords)._memory.prev_cluster_ids.getLastD [])) := by
  have hgen : ∀ (M : Linker) (coords : List Point),
      (M._memory.prev_cluster_ids = [] ∨ (M._clustering coords).1 = []
        ∨ M._memory.all_cluster_ids = []) →
      (M.link coords)._memory.prev_cluster_ids.getLastD []
          = (M._clustering coords).1.map (· + M._memory.max_prev_cluster_id) ∧
      (M.link coords)._memory.max_prev_cluster_id
          = (((M._clustering coords).1.map
              (· + M._memory.max_prev_cluster_id)).max?).getD
            M._memory.max_prev_cluster_id := by
    intro M coords h
    rw [link_empty_path M coords h]
    constructor
    · show ((M._update_id_empty (M._clustering coords).1).2._memory.update
          (M._clustering coords).2.1
          (M._update_id_empty (M._clustering coords).1).1).prev_cluster_ids.getLastD [] = _
      rw [memory_update_getLastD, update_id_empty_fst]
    · show ((M._update_id_empty (M._clustering coords).1).2._memory.update
          (M._clustering coords).2.1
          (M._update_id_empty (M._clustering coords).1).1).max_prev_cluster_id = _
      rw [memory_update_counter, update_id_empty_counter]
  obtain ⟨hprev, hempty⟩ := drain_all_empty L hV hF
  obtain ⟨hVd, hcfd, hntd, hcd⟩ := drain_valid L hV hF L._memory.n_timepoints
  refine ⟨fun coords h => hgen L coords h, hempty, hcd, ?_⟩
  intro coords
  have hg := hgen (L.drain L._memory.n_timepoints) coords (Or.inr (Or.inr hempty))
  rw [hcd] at hg
  refine ⟨hg.1, ?_⟩
  intro h1
  rw [hg.1]
  exact List.mem_map.mpr ⟨1, h1, by omega⟩

/-- Witness for C6: a fresh linker drained for `nPrev` frames retains no ids. -/
theorem C6_empty_memory_path_and_drain_witness :
    ((Linker.fresh constOne 1 1 1).drain
      (Linker.fresh constOne 1 1 1)._memory.n_timepoints)._memory.all_cluster_ids = [] :=
  (C6_empty_memory_path_and_drain (Linker.fresh constOne 1 1 1)
    (fresh_valid constOne 1 1 1 (by decide)) constOne_valid).2.1

theorem trackFrames_length (bin_col : Bool) :
    ∀ (frames : List (List DFRow)) (L : Linker),
      (DataFrameTracker.trackFrames bin_col L frames).length = frames.length := by
  intro frames
  induction frames with
  | nil => intro L; rfl
  | cons fr frames ih =>
    intro L
    show (DataFrameTracker.trackFrames bin_col _ frames).length + 1 = frames.length + 1
    rw [ih]

/-- C7: `DataFrameTracker.track` rejects an empty input at the start, sorts
the input once, and then runs one `track_iteration` — one `Linker.link` call,
even when no rows exist at a frame, which drives Memory aging — for every
integer `t` from 0 to `max(frame)` inclusive, so the emitted sequence has
exactly `max(frame) + 1` entries; a frame whose resulting event-id vector is
empty emits the active-filtered rows with the event-id column set to 0. -/
theorem C7_dataframe_track (bin_col : Bool) (L : Linker) (x : List DFRow) :
    (x = [] → DataFrameTracker.track bin_col L x = .error "Input is empty") ∧
    (x ≠ [] → ∀ out, DataFrameTracker.track bin_col L x = .ok out →
      out.length = ((List.insertionSort (fun a b => a.frame ≤ b.frame) x).map
        (fun r => r.frame)).foldl max 0 + 1) ∧
    (∀ (M : Linker) (y : List DFRow),
      (DataFrameTracker.track_iteration bin_col M y).2.event_ids = [] →
      (DataFrameTracker.track_iteration bin_col M y).1
        = (DataFrameTracker.filter_active bin_col y).map (fun r => (r, 0))) ∧
    (∀ M : Linker, (DataFrameTracker.track_iteration bin_col M []).2 = M.link []) := by
  refine ⟨?_, ?_, ?_, ?_⟩
  · intro h
    simp [DataFrameTracker.track, h]
  · intro hne out hout
    simp only [DataFrameTracker.track, if_neg hne] at hout
    have hok := Except.ok.inj hout
    rw [← hok, trackFrames_length, List.length_map, List.length_range]
  · intro M y hids
    have hsnd : (DataFrameTracker.track_iteration bin_col M y).2
        = M.link ((DataFrameTracker.filter_active bin_col y).map (·.pos)) := by
      simp only [DataFrameTracker.track_iteration]
      split <;> rfl
    rw [hsnd] at hids
    have hlen0 : (M.link ((DataFrameTracker.filter_active bin_col y).map
        (·.pos))).event_ids.length = 0 := by
      rw [hids]; rfl
    simp only [DataFrameTracker.track_iteration, if_pos hlen0]
  · intro M
    have hfa : (DataFrameTracker.filter_active bin_col []).map (·.pos)
        = ([] : List Point) := by
      cases bin_col <;> rfl
    simp only [DataFrameTracker.track_iteration, hfa]
    split <;> rfl

/-- Witness for C7: the empty input is rejected. -/
theorem C7_dataframe_track_witness :
    DataFrameTracker.track false (Linker.fresh constOne 1 1 1) [] = .error "Input is empty" :=
  (C7_dataframe_track false (Linker.fresh constOne 1 1 1) []).1 rfl

/-- C1 (amended): on the normal linking path, provided the propagation
threshold is at least 1 (its documented minimum; the `Linker` default is 1),
each current cluster either mints — when the number of cluster points whose
nearest memory neighbour lies within `epsPrev` is strictly below the
threshold, the counter is incremented and the fresh id `max + 1` is assigned
to every point of the cluster — or inherits: every point receives the id of
its own nearest memory neighbour (the full per-point `neighbor_ids` vector,
not the eps-filtered subset), so one spatial cluster may carry several
inherited ids.  Without the `propagationThreshold ≥ 1` proviso the claim
fails, see the counterexample. -/
theorem C1_brute_force_mint_or_inherit
    (labels : List ℤ) (coords : List Point) (memL : List ℤ) (memC : List Point)
    (thr : ℤ) (epsPrev : ℚ) (c : ℤ) (hthr : 1 ≤ thr) :
    (((bfl_eligible memL memC epsPrev coords).length : ℤ) < thr →
      brute_force_linking labels coords memL memC thr epsPrev c
        = (List.replicate labels.length (c + 1), c + 1)) ∧
    (thr ≤ ((bfl_eligible memL memC epsPrev coords).length : ℤ) →
      brute_force_linking labels coords memL memC thr epsPrev c
        = (bfl_neighbor_ids memL memC coords, c)) := by
  constructor
  · intro h
    simp only [brute_force_linking, if_pos h]
  · intro h
    have hlt : ¬ ((bfl_eligible memL memC epsPrev coords).length : ℤ) < thr :=
      not_lt.mpr h
    have hne : bfl_eligible memL memC epsPrev coords ≠ [] := by
      intro he
      rw [he] at h
      simp only [List.length_nil, Nat.cast_zero] at h
      omega
    have hu : ¬ np_unique (bfl_eligible memL memC epsPrev coords) = [] := by
      intro hu
      exact hne (np_unique_eq_nil.mp hu)
    simp only [brute_force_linking, if_neg hlt, if_neg hu]

/-- Witness for C1: with threshold 1 and one memory point at distance 0, the
cluster inherits the full neighbour-id vector. -/
theorem C1_brute_force_mint_or_inherit_witness :
    brute_force_linking [1] [[0]] [7] [[0]] 1 1 3
      = (bfl_neighbor_ids [7] [[0]] [[0]], 3) :=
  (C1_brute_force_mint_or_inherit [1] [[0]] [7] [[0]] 1 1 3 (by decide)).2 (by decide)

/-- C1 counterexample: with `propagationThreshold = 0`, a cluster whose
nearest memory neighbour is farther than `epsPrev` has an empty eligible
vector, so its length is not strictly below the threshold and the claim
prescribes inheritance of the neighbour ids `[5]`; the code instead mints
the fresh id 6 through the unique-empty branch. -/
theorem C1_counterexample :
    bfl_eligible [5] [[0]] 1 [[10]] = [] ∧
    ¬ (((bfl_eligible [5] [[0]] 1 [[10]]).length : ℤ) < 0) ∧
    bfl_neighbor_ids [5] [[0]] [[10]] = [5] ∧
    brute_force_linking [1] [[10]] [5] [[0]] 0 1 5 = ([6], 6) ∧
    (brute_force_linking [1] [[10]] [5] [[0]] 0 1 5).1
      ≠ bfl_neighbor_ids [5] [[0]] [[10]] := by
  refine ⟨by decide, by decide, by decide, by decide, by decide⟩

/-- C4 (code bug): `Linker` construction rejects *every* callable
`clusteringMethod` — `_validate_input` requires a python `str` and raises
`ValueError` before the callable branch of `__init__` is ever reached — even
though that branch and the error message of line 195 both advertise callables
as acceptable.  Unknown backend names are rejected as the claim says, and the
two known names are accepted. -/
theorem C4_callable_always_rejected :
    (∀ f : List Point → List (Option ℤ),
      LinkerInit 1 none 1 1 (.callable f) 1 1
        = .error "clusteringMethod must be a string") ∧
    LinkerInit 1 none 1 1 (.str "kmeans") 1 1
      = .error "Clustering method must be either in AVAILABLE_CLUSTERING_METHODS or a callable" ∧
    (LinkerInit 1 none 1 1 (.str "dbscan") 1 1).toOption.isSome = true ∧
    (LinkerInit 1 none 1 1 (.str "hdbscan") 1 1).toOption.isSome = true :=
  ⟨fun _ => rfl, rfl, rfl, rfl⟩

/-- C5 (code bug): the `dims` check of `ImageTracker.track` tests every
character of `dims` for membership in `dims` itself rather than in
`available_dims`, so a string with an invalid axis character such as
`"TQY"` passes validation instead of raising; duplicate axes and a rank
mismatch are still rejected. -/
theorem C5_invalid_axis_not_rejected :
    ImageTracker.track_validate "TQY" 3 = .ok () ∧
    ImageTracker.track_validate "TXX" 3 = .error "Duplicate dimensions in dims." ∧
    ImageTracker.track_validate "TXY" 2
      = .error "Length of dims must be equal to number of dimensions in image." :=
  ⟨rfl, rfl, rfl⟩

/-- C8 (code bug): the spec's drift scenario needs a `Linker` with
`epsPrev = 0.2`, but `_validate_input` accepts only python-`int` (or `None`)
values for `epsPrev`, so construction raises `ValueError` for 0.2 — even
though 0.2 is a number and the message says "must be a number or None".
Bypassing the faulty check, the algorithm behaves exactly as claimed: with
`epsPrev = 0.2` the two frame-1 rows mint the fresh event id 2, and with
`epsPrev = 1` (an int, accepted) they inherit id 1. -/
theorem C8_drift_scenarios :
    Linker._validate_input (some (1/5)) (.str "dbscan")
      = .error "epsPrev must be a number or None" ∧
    (LinkerInit (3/2) (some (1/5)) 2 1 (.str "dbscan") 1 1).toOption.isNone = true ∧
    (((Linker.fresh (_dbscan (3/2) 2) (1/5) 1 1).link [[0,0],[0,1]]).link
        [[1/2,1/2],[1/2,3/2]]).event_ids = [2, 2] ∧
    (LinkerInit (3/2) (some 1) 2 1 (.str "dbscan") 1 1).map
        (fun L => ((L.link [[0,0],[0,1]]).link [[1/2,1/2],[1/2,3/2]]).event_ids)
      = .ok [1, 1] :=
  ⟨rfl, by decide, by decide, rfl⟩

/-- C10: `ImageTracker` casts input frames and output frames to `np.uint16`.
Every input intensity is reinterpreted modulo 2^16 before the activity test
(so the negative intensity −1 becomes 65535 and counts as active), and the
scattered event ids are stored modulo 2^16 (so id 65537 is written as 1). -/
theorem C10_uint16_casts :
    (∀ (shape : List ℕ) (image : List ℤ),
      (ImageTracker._image_to_coordinates shape image).2
        = image.map (fun v => v % 65536)) ∧
    ImageTracker._image_to_coordinates [2] [-1, 0] = ([[0], [1]], [65535, 0]) ∧
    ImageTracker._filter_active [[0], [1]] [65535, 0] = [[0]] ∧
    ImageTracker._coordinates_to_image [2] [[0], [1]] [65537, 0] = .ok [1, 0] :=
  ⟨fun _ _ => rfl, by decide, by decide, rfl⟩

end Arcos
